import Mathlib

/-!
Verification of the Minesweeper rule engine (`minesweeper.py`).

The Python classes `Square` and `GameGrid` are shallowly embedded below.
Python's in-place mutation becomes explicit state passing: every mutating
method takes a `GameGrid` and returns the updated `GameGrid`.  Python `int`
counters (`nmines`, `nflags`, `squares_revealed`) are modelled as `Int`
(Python integers are signed and unbounded); grid dimensions and positions
are `Nat` (the program only ever uses non-negative indices; the `i+m >= 0`
bound checks in `neighbors` are performed over `Int` exactly as in the
source).  Out-of-range `tab[i][j]` access raises `IndexError` in Python;
here `square_at` returns a default blank square, and every theorem about a
grid access carries the in-bounds hypotheses under which the two coincide.
The recursive `reveal` is embedded with explicit fuel (`revealAux`); the
fuel-independence theorem for claim C9 shows `nrows * ncols` steps always
suffice, so `GameGrid.reveal` (fuel `nrows * ncols + 1`) computes the same
result as Python's unbounded recursion on every well-formed grid.
-/

/-- Embedding of the Python class `Square`: one grid position's state.
`row`/`col` are stored at creation and never read by the game logic. -/
structure Square where
  row : Nat
  col : Nat
  revealed : Bool
  flagged : Bool
  mined : Bool
  mines_nearby : Nat
deriving DecidableEq

/-- `Square.__init__(row, col)`. -/
def Square.init (row col : Nat) : Square :=
  { row := row, col := col, revealed := false, flagged := false,
    mined := false, mines_nearby := 0 }

/-- `Square.reset`: back to a blank state (coordinates are kept). -/
def Square.reset (sq : Square) : Square :=
  { sq with
    revealed := false
    flagged := false
    mined := false
    mines_nearby := 0 }

/-- Default square returned by out-of-range reads; every theorem that reads
the grid restricts to in-bounds positions, where this default is never hit. -/
def defaultSquare : Square := Square.init 0 0

/-- Replace the element at index `n` by its image under `f`; identity when
`n` is out of range.  Models `self.tab[i][j].field = ...` updates. -/
def modifyL {α : Type} (l : List α) (n : Nat) (f : α → α) : List α :=
  match l, n with
  | [], _ => []
  | a :: as, 0 => f a :: as
  | a :: as, n + 1 => a :: modifyL as n f

/-- Embedding of the Python class `GameGrid`. -/
structure GameGrid where
  nrows : Nat
  ncols : Nat
  nmines : Int
  nflags : Int
  tab : List (List Square)
  squares_revealed : Int
deriving DecidableEq

/-- Read the square at `(i, j)` of a raw table. -/
def squareAt (tab : List (List Square)) (i j : Nat) : Square :=
  (tab.getD i []).getD j defaultSquare

/-- Update the square at `(i, j)` of a raw table. -/
def modify2 (tab : List (List Square)) (i j : Nat) (f : Square → Square) :
    List (List Square) :=
  modifyL tab i (fun row => modifyL row j f)

namespace GameGrid

/-- `GameGrid.__init__(nrows, ncols)`. -/
def init (nrows ncols : Nat) : GameGrid :=
  { nrows := nrows, ncols := ncols, nmines := 0, nflags := 0,
    tab := (List.range nrows).map (fun i =>
      (List.range ncols).map (fun j => Square.init i j)),
    squares_revealed := 0 }

/-- `self.tab[i][j]` (in-bounds reads only; see module comment). -/
def square_at (g : GameGrid) (i j : Nat) : Square :=
  squareAt g.tab i j

/-- Update the square at `(i, j)` in place. -/
def setSquare (g : GameGrid) (i j : Nat) (f : Square → Square) : GameGrid :=
  { g with tab := modify2 g.tab i j f }

/-- The loop ranges `for m in \x7b-1,0,1\x7d: for l in \x7b-1,0,1\x7d`, in
iteration order `m` outer, `l` inner ("the order does not matter"). -/
def deltaPairs : List (Int × Int) :=
  [(-1, -1), (-1, 0), (-1, 1), (0, -1), (0, 0), (0, 1), (1, -1), (1, 0), (1, 1)]

/-- `GameGrid.neighbors(i, j)`: the in-bounds positions adjacent to `(i, j)`;
the `(0, 0)` offset is skipped by the `continue`. -/
def neighbors (g : GameGrid) (i j : Nat) : List (Nat × Nat) :=
  deltaPairs.filterMap (fun ml =>
    if ml.1 = 0 ∧ ml.2 = 0 then none
    else
      if (i : Int) + ml.1 ≥ 0 ∧ (i : Int) + ml.1 < g.nrows ∧
          (j : Int) + ml.2 ≥ 0 ∧ (j : Int) + ml.2 < g.ncols then
        some (((i : Int) + ml.1).toNat, ((j : Int) + ml.2).toNat)
      else none)

/-- `GameGrid.is_revealed(i, j)`. -/
def is_revealed (g : GameGrid) (i j : Nat) : Bool :=
  (g.square_at i j).revealed

/-- `GameGrid.is_flagged(i, j)`. -/
def is_flagged (g : GameGrid) (i j : Nat) : Bool :=
  (g.square_at i j).flagged

/-- `GameGrid.mine_at(i, j)`. -/
def mine_at (g : GameGrid) (i j : Nat) : Bool :=
  (g.square_at i j).mined

/-- `GameGrid.mines_nearby(i, j)`. -/
def mines_nearby (g : GameGrid) (i j : Nat) : Nat :=
  (g.square_at i j).mines_nearby

/-- `GameGrid.flags_nearby(i, j)`: count of flagged neighbors. -/
def flags_nearby (g : GameGrid) (i j : Nat) : Nat :=
  (g.neighbors i j).foldl
    (fun count p => if (g.square_at p.1 p.2).flagged then count + 1 else count) 0

/-- `GameGrid.game_lost`: the double loop over all positions with early
return, as a Boolean `any`. -/
def game_lost (g : GameGrid) : Bool :=
  (List.range g.nrows).any (fun i =>
    (List.range g.ncols).any (fun j => g.mine_at i j && g.is_revealed i j))

/-- `GameGrid.game_won`: the subtraction is Python `int` subtraction,
hence over `Int` here. -/
def game_won (g : GameGrid) : Bool :=
  !g.game_lost && ((g.nrows : Int) * (g.ncols : Int) - g.squares_revealed == g.nmines)

/-- `GameGrid.reset`: reset every square, zero all counters. -/
def reset (g : GameGrid) : GameGrid :=
  { g with
    tab := g.tab.map (fun row => row.map Square.reset)
    nmines := 0
    nflags := 0
    squares_revealed := 0 }

/-- The two marking lines of `GameGrid.reveal`: `square.revealed = True`
and `self.squares_revealed += 1`. -/
def markRevealed (g : GameGrid) (i j : Nat) : GameGrid :=
  { g.setSquare i j (fun sq => { sq with revealed := true }) with
    squares_revealed := g.squares_revealed + 1 }

/-- `GameGrid.reveal`, recursion made structural on `fuel`.  The source
recursion needs at most one productive step per unrevealed cell (theorem
for claim C9), so any fuel of at least `nrows * ncols` computes the true
result on a well-formed grid.  The cascade test reads `square.mined` from
the square captured before marking (unchanged by the marking) and
`self.mines_nearby(i, j)` from the post-marking state, as the source does. -/
def revealAux (fuel : Nat) (g : GameGrid) (i j : Nat) : GameGrid :=
  match fuel with
  | 0 => g
  | fuel + 1 =>
    if g.is_revealed i j || g.is_flagged i j then g
    else
      if (g.square_at i j).mined = false ∧ (g.markRevealed i j).mines_nearby i j = 0 then
        ((g.markRevealed i j).neighbors i j).foldl
          (fun h p => revealAux fuel h p.1 p.2) (g.markRevealed i j)
      else g.markRevealed i j

/-- `GameGrid.reveal(i, j)` with always-sufficient fuel. -/
def reveal (g : GameGrid) (i j : Nat) : GameGrid :=
  revealAux (g.nrows * g.ncols + 1) g i j

/-- `GameGrid.chording(i, j)`. -/
def chording (g : GameGrid) (i j : Nat) : GameGrid :=
  if g.flags_nearby i j = g.mines_nearby i j then
    (g.neighbors i j).foldl (fun h p => reveal h p.1 p.2) g
  else g

/-- `GameGrid.place_flag(i, j)`: flags whenever the square is unflagged —
the source does not consult `revealed`. -/
def place_flag (g : GameGrid) (i j : Nat) : GameGrid :=
  if (g.square_at i j).flagged = false then
    { g.setSquare i j (fun sq => { sq with flagged := true }) with
      nflags := g.nflags + 1 }
  else g

/-- `GameGrid.remove_flag(i, j)`. -/
def remove_flag (g : GameGrid) (i j : Nat) : GameGrid :=
  if (g.square_at i j).flagged = true then
    { g.setSquare i j (fun sq => { sq with flagged := false }) with
      nflags := g.nflags - 1 }
  else g

/-- The mined-marking line of `place_mine`: `self.tab[i][j].mined = True`. -/
def markMined (g : GameGrid) (i j : Nat) : GameGrid :=
  g.setSquare i j (fun sq => { sq with mined := true })

/-- `GameGrid.place_mine(i, j)`: no-op when already mined (the early
`return None` skips the trailing `self.nmines += 1`); otherwise mark mined,
bump every neighbor's `mines_nearby`, and bump `nmines`.  The trailing
`self.nmines += 1` runs after the loop, and neither the marking nor the
loop touches `nmines`, so it increments the original `g.nmines`. -/
def place_mine (g : GameGrid) (i j : Nat) : GameGrid :=
  if (g.square_at i j).mined = true then g
  else
    { ((g.markMined i j).neighbors i j).foldl
        (fun h p => h.setSquare p.1 p.2
          (fun sq => { sq with mines_nearby := sq.mines_nearby + 1 }))
        (g.markMined i j) with
      nmines := g.nmines + 1 }

/-- `GameGrid.random_game(n_mines)`.  The call to the standard library's
`random.sample(population, n)` is modelled by an oracle list `sample` (its
return value) together with its documented error behavior: it raises
`ValueError` exactly when `n` exceeds the population size, and otherwise
returns `n` distinct population elements.  Modelled from the spec: the
sampling itself is library code outside this repository; theorems about the
success path assume `sample` is a valid `random.sample` result.  The result
pairs the post-call grid with `some errorMessage` when the call raises:
`self.reset()` runs before the sampling, so the raising path still returns
the reset grid, which is what claim C10 is about. -/
def random_game (g : GameGrid) (n_mines : Nat) (sample : List (Nat × Nat)) :
    GameGrid × Option String :=
  let g1 := g.reset
  if n_mines ≤ g1.nrows * g1.ncols then
    (sample.foldl (fun h p => h.place_mine p.1 p.2) g1, none)
  else
    (g1, some "ValueError: Sample larger than population or is negative")

end GameGrid

/-- Number of squares of a table satisfying `p`. -/
def count2 (p : Square → Bool) (tab : List (List Square)) : Nat :=
  (tab.map (fun row => row.countP p)).sum

/-- Well-formed table shape: `nrows` rows of `ncols` squares each.  Holds
for `GameGrid.init` and is preserved by every operation. -/
def WF (g : GameGrid) : Prop :=
  g.tab.length = g.nrows ∧ ∀ row ∈ g.tab, row.length = g.ncols

instance (g : GameGrid) : Decidable (WF g) := by
  unfold WF; infer_instance

/-- Spec-side adjacency: distinct positions at Chebyshev distance at most
one.  Stated independently of the source's `neighbors` enumeration. -/
def isAdjacent (i j x y : Nat) : Prop :=
  ¬(x = i ∧ y = j) ∧ (i : Int) - 1 ≤ x ∧ (x : Int) ≤ i + 1 ∧
    (j : Int) - 1 ≤ y ∧ (y : Int) ≤ j + 1

instance (i j x y : Nat) : Decidable (isAdjacent i j x y) := by
  unfold isAdjacent; infer_instance

/-- Spec-side count of mined in-bounds neighbors of `(i, j)`. -/
def minedNeighborCount (g : GameGrid) (i j : Nat) : Nat :=
  ((Finset.range g.nrows ×ˢ Finset.range g.ncols).filter
    (fun p => isAdjacent i j p.1 p.2 ∧ (g.square_at p.1 p.2).mined = true)).card

/-- Invariant §3.4: every in-bounds cell's cached `mines_nearby` equals
its exact number of mined in-bounds neighbors. -/
def MinesConsistent (g : GameGrid) : Prop :=
  ∀ x y, x < g.nrows → y < g.ncols →
    (squareAt g.tab x y).mines_nearby = minedNeighborCount g x y

/-- Invariant §3.1: the `nflags` and `squares_revealed` counters agree
with the actual number of flagged and revealed squares. -/
def CountInv (g : GameGrid) : Prop :=
  g.nflags = (count2 (fun sq => sq.flagged) g.tab : Int) ∧
  g.squares_revealed = (count2 (fun sq => sq.revealed) g.tab : Int)

/-- Everything `reveal` preserves or moves monotonically, bundled so that a
single induction establishes it: dimensions, `nmines`, `nflags`, table
shape, the `flagged` / `mined` / `mines_nearby` fields and flagged-count of
every square, the difference between the `squares_revealed` counter and the
actual number of revealed squares, and the number of unrevealed squares
(never increasing). -/
structure RevealRel (g g' : GameGrid) : Prop where
  nrows_eq : g'.nrows = g.nrows
  ncols_eq : g'.ncols = g.ncols
  nmines_eq : g'.nmines = g.nmines
  nflags_eq : g'.nflags = g.nflags
  len_eq : g'.tab.length = g.tab.length
  row_len_eq : ∀ x, (g'.tab.getD x []).length = (g.tab.getD x []).length
  flagged_at : ∀ x y, (squareAt g'.tab x y).flagged = (squareAt g.tab x y).flagged
  mined_at : ∀ x y, (squareAt g'.tab x y).mined = (squareAt g.tab x y).mined
  mines_nearby_at : ∀ x y,
    (squareAt g'.tab x y).mines_nearby = (squareAt g.tab x y).mines_nearby
  flagged_count_eq :
    count2 (fun sq => sq.flagged) g'.tab = count2 (fun sq => sq.flagged) g.tab
  counter_eq : g'.squares_revealed + (count2 (fun sq => sq.revealed) g.tab : Int)
    = g.squares_revealed + (count2 (fun sq => sq.revealed) g'.tab : Int)
  unrev_le :
    count2 (fun sq => !sq.revealed) g'.tab ≤ count2 (fun sq => !sq.revealed) g.tab

/-- The public operations of `GameGrid`, for quantifying over operation
sequences (claim C7). -/
inductive Op where
  | reveal (i j : Nat)
  | chording (i j : Nat)
  | flag (i j : Nat)
  | unflag (i j : Nat)
  | mine (i j : Nat)
  | new_game (n : Nat) (sample : List (Nat × Nat))
  | reset

/-- Run one public operation.  `new_game` keeps the post-call grid whether
or not the call raised (the `ValueError` path mutates first, see C10). -/
def applyOp (g : GameGrid) : Op → GameGrid
  | .reveal i j => g.reveal i j
  | .chording i j => g.chording i j
  | .flag i j => g.place_flag i j
  | .unflag i j => g.remove_flag i j
  | .mine i j => g.place_mine i j
  | .new_game n sample => (g.random_game n sample).1
  | .reset => g.reset

/-- Validity of one operation on an `R × C` board: coordinate arguments in
bounds (out-of-range coordinates are a precondition violation, §7). -/
def ValidOp (R C : Nat) : Op → Prop
  | .reveal i j => i < R ∧ j < C
  | .chording i j => i < R ∧ j < C
  | .flag i j => i < R ∧ j < C
  | .unflag i j => i < R ∧ j < C
  | .mine i j => i < R ∧ j < C
  | .new_game _ sample => ∀ p ∈ sample, p.1 < R ∧ p.2 < C
  | .reset => True

/-- Run a sequence of public operations. -/
def applyOps (g : GameGrid) (ops : List Op) : GameGrid :=
  ops.foldl applyOp g

/-- The 3×3 board with its only mine at (2,2) (claim C2). -/
def demoGrid3 : GameGrid := (GameGrid.init 3 3).place_mine 2 2

/-- `reveal(0,0)` on `demoGrid3`. -/
def demoGrid3r : GameGrid := demoGrid3.reveal 0 0

/-- A reachable state with a revealed, unflagged cell: `reveal(0,0)` on a
blank 1×2 board cascades over both cells (claim C3). -/
def revealedGrid : GameGrid := (GameGrid.init 1 2).reveal 0 0

/-- A 2×2 board with one mine at (1,1) (claims C6, C8 witnesses). -/
def mineGrid2 : GameGrid := (GameGrid.init 2 2).place_mine 1 1

/-- `mineGrid2` with the mine flagged and (0,0) revealed: `flags_nearby =
mines_nearby = 1` at (0,0), so chording there fires. -/
def chordGrid : GameGrid := (mineGrid2.place_flag 1 1).reveal 0 0

section ListLemmas

variable {α : Type}

theorem modifyL_length (l : List α) (n : Nat) (f : α → α) :
    (modifyL l n f).length = l.length := by
  induction l generalizing n with
  | nil => rfl
  | cons a as ih =>
    cases n with
    | zero => rfl
    | succ n => simp [modifyL, ih]

theorem modifyL_of_le (l : List α) (n : Nat) (f : α → α)
    (h : l.length ≤ n) : modifyL l n f = l := by
  induction l generalizing n with
  | nil => rfl
  | cons a as ih =>
    cases n with
    | zero => simp at h
    | succ n => simpa [modifyL] using ih n (by simpa using h)

theorem getD_modifyL_self (l : List α) (n : Nat) (f : α → α) (d : α)
    (h : n < l.length) : (modifyL l n f).getD n d = f (l.getD n d) := by
  induction l generalizing n with
  | nil => simp at h
  | cons a as ih =>
    cases n with
    | zero => rfl
    | succ n => simpa [modifyL] using ih n (by simpa using h)

theorem getD_modifyL_ne (l : List α) (n m : Nat) (f : α → α) (d : α)
    (h : m ≠ n) : (modifyL l n f).getD m d = l.getD m d := by
  induction l generalizing n m with
  | nil => rfl
  | cons a as ih =>
    cases n with
    | zero =>
      cases m with
      | zero => exact absurd rfl h
      | succ m => rfl
    | succ n =>
      cases m with
      | zero => rfl
      | succ m => simpa [modifyL] using ih n m (by omega)

theorem countP_modifyL (l : List α) (n : Nat) (f : α → α) (p : α → Bool)
    (d : α) (h : n < l.length) :
    (modifyL l n f).countP p + (if p (l.getD n d) then 1 else 0)
      = l.countP p + (if p (f (l.getD n d)) then 1 else 0) := by
  induction l generalizing n with
  | nil => simp at h
  | cons a as ih =>
    cases n with
    | zero =>
      simp only [modifyL, List.countP_cons, List.getD_cons_zero]
      omega
    | succ n =>
      have := ih n (by simpa using h)
      simp only [modifyL, List.countP_cons, List.getD_cons_succ]
      omega

end ListLemmas

theorem modifyL_of_fix {α : Type} (l : List α) (n : Nat) (f : α → α) (d : α)
    (h : f (l.getD n d) = l.getD n d) : modifyL l n f = l := by
  induction l generalizing n with
  | nil => rfl
  | cons a as ih =>
    cases n with
    | zero => simpa [modifyL] using h
    | succ n => simpa [modifyL] using ih n (by simpa using h)

section TabLemmas

theorem modify2_length (tab : List (List Square)) (i j : Nat)
    (f : Square → Square) : (modify2 tab i j f).length = tab.length :=
  modifyL_length _ _ _

theorem modify2_row_length (tab : List (List Square)) (i j x : Nat)
    (f : Square → Square) :
    ((modify2 tab i j f).getD x []).length = (tab.getD x []).length := by
  unfold modify2
  by_cases hx : x = i
  · subst hx
    rcases Nat.lt_or_ge x tab.length with hlt | hge
    · rw [getD_modifyL_self _ _ _ _ hlt, modifyL_length]
    · rw [modifyL_of_le _ _ _ hge]
  · rw [getD_modifyL_ne _ _ _ _ _ hx]

theorem squareAt_modify2_self (tab : List (List Square)) (i j : Nat)
    (f : Square → Square) (hi : i < tab.length)
    (hj : j < (tab.getD i []).length) :
    squareAt (modify2 tab i j f) i j = f (squareAt tab i j) := by
  unfold squareAt modify2
  rw [getD_modifyL_self _ _ _ _ hi, getD_modifyL_self _ _ _ _ hj]

theorem squareAt_modify2_ne (tab : List (List Square)) (i j x y : Nat)
    (f : Square → Square) (h : ¬(x = i ∧ y = j)) :
    squareAt (modify2 tab i j f) x y = squareAt tab x y := by
  unfold squareAt modify2
  by_cases hx : x = i
  · subst hx
    have hy : y ≠ j := fun hy => h ⟨rfl, hy⟩
    rcases Nat.lt_or_ge x tab.length with hlt | hge
    · rw [getD_modifyL_self _ _ _ _ hlt, getD_modifyL_ne _ _ _ _ _ hy]
    · rw [modifyL_of_le _ _ _ hge]
  · rw [getD_modifyL_ne _ _ _ _ _ hx]

theorem count2_modify2 (tab : List (List Square)) (i j : Nat)
    (f : Square → Square) (p : Square → Bool) (hi : i < tab.length)
    (hj : j < (tab.getD i []).length) :
    count2 p (modify2 tab i j f) + (if p (squareAt tab i j) then 1 else 0)
      = count2 p tab + (if p (f (squareAt tab i j)) then 1 else 0) := by
  induction tab generalizing i with
  | nil => simp at hi
  | cons a as ih =>
    cases i with
    | zero =>
      have := countP_modifyL a j f p defaultSquare (by simpa using hj)
      simp only [modify2, modifyL, count2, List.map_cons, List.sum_cons,
        squareAt, List.getD_cons_zero]
      simp only [modify2, modifyL] at this ⊢
      omega
    | succ i =>
      have := ih i (by simpa using hi) (by simpa using hj)
      simp only [modify2, modifyL, count2, List.map_cons, List.sum_cons,
        squareAt, List.getD_cons_succ] at this ⊢
      omega

theorem count2_modify2_invar (tab : List (List Square)) (i j : Nat)
    (f : Square → Square) (p : Square → Bool)
    (h : p (f (squareAt tab i j)) = p (squareAt tab i j)) :
    count2 p (modify2 tab i j f) = count2 p tab := by
  rcases Nat.lt_or_ge i tab.length with hi | hi
  · rcases Nat.lt_or_ge j (tab.getD i []).length with hj | hj
    · have := count2_modify2 tab i j f p hi hj
      rw [h] at this
      omega
    · unfold modify2
      rw [modifyL_of_fix _ _ _ [] (modifyL_of_le _ _ _ hj)]
  · unfold modify2
    rw [modifyL_of_le _ _ _ hi]

end TabLemmas

theorem mem_neighbors {g : GameGrid} {i j x y : Nat} :
    (x, y) ∈ g.neighbors i j ↔
      x < g.nrows ∧ y < g.ncols ∧ isAdjacent i j x y := by
  unfold GameGrid.neighbors
  simp only [List.mem_filterMap]
  constructor
  · rintro ⟨⟨m, l⟩, hm, hf⟩
    simp only [GameGrid.deltaPairs, List.mem_cons, List.not_mem_nil, or_false,
      Prod.mk.injEq] at hm
    simp only [Option.ite_none_left_eq_some, Option.ite_none_right_eq_some,
      Option.some.injEq, Prod.mk.injEq] at hf
    simp only [isAdjacent]
    omega
  · intro h
    obtain ⟨hx, hy, hadj⟩ := h
    simp only [isAdjacent] at hadj
    refine ⟨((x : Int) - i, (y : Int) - j), ?_, ?_⟩
    · simp only [GameGrid.deltaPairs, List.mem_cons, List.not_mem_nil, or_false,
        Prod.mk.injEq]
      omega
    · rw [if_neg (by omega), if_pos (by omega)]
      simp only [Option.some.injEq, Prod.mk.injEq]
      omega

theorem neighbors_nodup (g : GameGrid) (i j : Nat) :
    (g.neighbors i j).Nodup := by
  unfold GameGrid.neighbors
  refine List.Nodup.filterMap ?_ (by decide)
  rintro ⟨m, l⟩ ⟨m₁, l₁⟩ ⟨x, y⟩ h1 h2
  simp only [Option.mem_def, Option.ite_none_left_eq_some,
    Option.ite_none_right_eq_some, Option.some.injEq, Prod.mk.injEq] at h1 h2
  simp only [Prod.mk.injEq]
  omega

theorem neighbors_symm {g : GameGrid} {i j x y : Nat} (hi : i < g.nrows)
    (hj : j < g.ncols) (hx : x < g.nrows) (hy : y < g.ncols) :
    ((x, y) ∈ g.neighbors i j ↔ (i, j) ∈ g.neighbors x y) := by
  rw [mem_neighbors, mem_neighbors]
  simp only [isAdjacent]
  omega

theorem WF.row_len {g : GameGrid} (h : WF g) {i : Nat} (hi : i < g.nrows) :
    (g.tab.getD i []).length = g.ncols := by
  have hlen : i < g.tab.length := by rw [h.1]; exact hi
  rw [List.getD_eq_getElem _ _ hlen]
  exact h.2 _ (List.getElem_mem hlen)

theorem revealRel_refl (g : GameGrid) : RevealRel g g :=
  { nrows_eq := rfl
    ncols_eq := rfl
    nmines_eq := rfl
    nflags_eq := rfl
    len_eq := rfl
    row_len_eq := fun _x => rfl
    flagged_at := fun _x _y => rfl
    mined_at := fun _x _y => rfl
    mines_nearby_at := fun _x _y => rfl
    flagged_count_eq := rfl
    counter_eq := by omega
    unrev_le := le_refl _ }

theorem revealRel_trans {g₁ g₂ g₃ : GameGrid} (h₁ : RevealRel g₁ g₂)
    (h₂ : RevealRel g₂ g₃) : RevealRel g₁ g₃ :=
  { nrows_eq := h₂.nrows_eq.trans h₁.nrows_eq
    ncols_eq := h₂.ncols_eq.trans h₁.ncols_eq
    nmines_eq := h₂.nmines_eq.trans h₁.nmines_eq
    nflags_eq := h₂.nflags_eq.trans h₁.nflags_eq
    len_eq := h₂.len_eq.trans h₁.len_eq
    row_len_eq := fun x => (h₂.row_len_eq x).trans (h₁.row_len_eq x)
    flagged_at := fun x y => (h₂.flagged_at x y).trans (h₁.flagged_at x y)
    mined_at := fun x y => (h₂.mined_at x y).trans (h₁.mined_at x y)
    mines_nearby_at := fun x y =>
      (h₂.mines_nearby_at x y).trans (h₁.mines_nearby_at x y)
    flagged_count_eq := h₂.flagged_count_eq.trans h₁.flagged_count_eq
    counter_eq := by
      have hc1 := h₁.counter_eq
      have hc2 := h₂.counter_eq
      omega
    unrev_le := le_trans h₂.unrev_le h₁.unrev_le }

/-- Well-formedness transfers along a shape-preserving step. -/
theorem WF_of_shape {g g' : GameGrid} (h : WF g) (hr : g'.nrows = g.nrows)
    (hc : g'.ncols = g.ncols) (hlen : g'.tab.length = g.tab.length)
    (hrow : ∀ x, (g'.tab.getD x []).length = (g.tab.getD x []).length) :
    WF g' := by
  constructor
  · rw [hlen, hr, h.1]
  · intro row hrow'
    obtain ⟨x, hx, hget⟩ := List.mem_iff_getElem.mp hrow'
    have : row = g'.tab.getD x [] := by
      rw [List.getD_eq_getElem _ _ hx, hget]
    rw [this, hrow x, hc]
    exact h.row_len (by rw [← h.1, ← hlen]; exact hx)

theorem WF.markRevealed {g : GameGrid} (h : WF g) (i j : Nat) :
    WF (g.markRevealed i j) :=
  WF_of_shape h rfl rfl (modify2_length _ _ _ _)
    (fun _x => modify2_row_length _ _ _ _ _)

theorem markRevealed_rel {g : GameGrid} {i j : Nat} (hwf : WF g)
    (hi : i < g.nrows) (hj : j < g.ncols)
    (hunrev : (squareAt g.tab i j).revealed = false) :
    RevealRel g (g.markRevealed i j) := by
  have hil : i < g.tab.length := by rw [hwf.1]; exact hi
  have hjl : j < (g.tab.getD i []).length := by rw [hwf.row_len hi]; exact hj
  have htab : (g.markRevealed i j).tab
      = modify2 g.tab i j (fun sq => { sq with revealed := true }) := rfl
  have hcnt : (g.markRevealed i j).squares_revealed
      = g.squares_revealed + 1 := rfl
  have hself := squareAt_modify2_self g.tab i j
    (fun sq => { sq with revealed := true }) hil hjl
  have hne : ∀ x y, ¬(x = i ∧ y = j) →
      squareAt (modify2 g.tab i j (fun sq => { sq with revealed := true })) x y
        = squareAt g.tab x y :=
    fun x y hxy => squareAt_modify2_ne g.tab i j x y _ hxy
  have hrev := count2_modify2 g.tab i j (fun sq => { sq with revealed := true })
    (fun sq => sq.revealed) hil hjl
  have hunrev2 := count2_modify2 g.tab i j (fun sq => { sq with revealed := true })
    (fun sq => !sq.revealed) hil hjl
  simp only [hunrev, Bool.not_false, Bool.not_true, if_true, if_false,
    Bool.false_eq_true, Bool.true_eq_false, ite_true, ite_false] at hrev hunrev2
  refine
    { nrows_eq := rfl
      ncols_eq := rfl
      nmines_eq := rfl
      nflags_eq := rfl
      len_eq := ?hlen
      row_len_eq := ?hrowlen
      flagged_at := ?hfl
      mined_at := ?hmnd
      mines_nearby_at := ?hmnb
      flagged_count_eq := ?hflc
      counter_eq := ?hctr
      unrev_le := ?hule }
  · rw [htab]; exact modify2_length _ _ _ _
  · intro x; rw [htab]; exact modify2_row_length _ _ _ _ _
  · intro x y
    rw [htab]
    by_cases hxy : x = i ∧ y = j
    · obtain ⟨rfl, rfl⟩ := hxy
      rw [hself]
    · exact congrArg Square.flagged (hne x y hxy)
  · intro x y
    rw [htab]
    by_cases hxy : x = i ∧ y = j
    · obtain ⟨rfl, rfl⟩ := hxy
      rw [hself]
    · exact congrArg Square.mined (hne x y hxy)
  · intro x y
    rw [htab]
    by_cases hxy : x = i ∧ y = j
    · obtain ⟨rfl, rfl⟩ := hxy
      rw [hself]
    · exact congrArg Square.mines_nearby (hne x y hxy)
  · rw [htab]
    exact count2_modify2_invar g.tab i j _ _ rfl
  · rw [htab, hcnt]
    omega
  · rw [htab]
    omega

/-- A `RevealRel` step out of a well-formed grid lands in a well-formed
grid (it preserves the table shape). -/
theorem WF_of_revealRel {g g' : GameGrid} (hwf : WF g) (h : RevealRel g g') :
    WF g' :=
  WF_of_shape hwf h.nrows_eq h.ncols_eq h.len_eq h.row_len_eq

/-- Master lemma for the recursive reveal: from a well-formed grid and an
in-bounds start, every `revealAux` run is a `RevealRel` step. -/
theorem revealAux_rel :
    ∀ (fuel : Nat) (g : GameGrid) (i j : Nat), WF g → i < g.nrows →
      j < g.ncols → RevealRel g (GameGrid.revealAux fuel g i j) := by
  intro fuel
  induction fuel with
  | zero => exact fun g i j _ _ _ => revealRel_refl g
  | succ fuel ih =>
    intro g i j hwf hi hj
    simp only [GameGrid.revealAux]
    split
    · exact revealRel_refl g
    · rename_i hguard
      have hunrev : (squareAt g.tab i j).revealed = false := by
        simp only [Bool.or_eq_true, not_or, Bool.not_eq_true,
          GameGrid.is_revealed, GameGrid.square_at] at hguard
        exact hguard.1
      have hrel1 := markRevealed_rel hwf hi hj hunrev
      have hwf1 : WF (g.markRevealed i j) := hwf.markRevealed i j
      have hfold : ∀ (L : List (Nat × Nat)) (h : GameGrid), WF h →
          h.nrows = g.nrows → h.ncols = g.ncols →
          (∀ p ∈ L, p.1 < g.nrows ∧ p.2 < g.ncols) →
          RevealRel h (L.foldl (fun h p => GameGrid.revealAux fuel h p.1 p.2) h) := by
        intro L
        induction L with
        | nil => exact fun h _ _ _ _ => revealRel_refl h
        | cons q L ihL =>
          intro h hwfh hr hc hb
          simp only [List.foldl_cons]
          have hq := hb q (List.mem_cons_self q L)
          have hstep := ih h q.1 q.2 hwfh (by rw [hr]; exact hq.1)
            (by rw [hc]; exact hq.2)
          have hwfh2 : WF (GameGrid.revealAux fuel h q.1 q.2) := WF_of_revealRel hwfh hstep
          refine revealRel_trans hstep (ihL _ hwfh2 ?_ ?_ ?_)
          · rw [hstep.nrows_eq, hr]
          · rw [hstep.ncols_eq, hc]
          · exact fun p hp => hb p (List.mem_cons_of_mem q hp)
      split
      · refine revealRel_trans hrel1 (hfold _ _ hwf1 rfl rfl ?_)
        intro p hp
        have := mem_neighbors.mp (by exact hp)
        exact ⟨this.1, this.2.1⟩
      · exact hrel1

/-- In a table with no square satisfying `p`, in-bounds reads refute `p`. -/
theorem squareAt_of_count2_eq_zero {p : Square → Bool}
    {tab : List (List Square)} (h : count2 p tab = 0) {i j : Nat}
    (hi : i < tab.length) (hj : j < (tab.getD i []).length) :
    p (squareAt tab i j) = false := by
  unfold count2 at h
  have hrow : (tab.getD i []).countP p = 0 := by
    have hall := List.sum_eq_zero_iff.mp h
    have hmem : (tab.getD i []).countP p ∈ tab.map (fun row => row.countP p) := by
      rw [List.getD_eq_getElem _ _ hi]
      exact List.mem_map_of_mem _ (List.getElem_mem hi)
    exact hall _ hmem
  have hall2 := List.countP_eq_zero.mp hrow
  have hmem2 : squareAt tab i j ∈ tab.getD i [] := by
    unfold squareAt
    rw [List.getD_eq_getElem _ _ hj]
    exact List.getElem_mem hj
  exact Bool.not_eq_true _ ▸ (Bool.eq_false_iff.mpr (hall2 _ hmem2))

/-- Marking an in-bounds unrevealed square decreases the unrevealed count
by exactly one. -/
theorem markRevealed_unrev_count {g : GameGrid} {i j : Nat} (hwf : WF g)
    (hi : i < g.nrows) (hj : j < g.ncols)
    (hunrev : (squareAt g.tab i j).revealed = false) :
    count2 (fun sq => !sq.revealed) (g.markRevealed i j).tab + 1
      = count2 (fun sq => !sq.revealed) g.tab := by
  have hil : i < g.tab.length := by rw [hwf.1]; exact hi
  have hjl : j < (g.tab.getD i []).length := by rw [hwf.row_len hi]; exact hj
  have h := count2_modify2 g.tab i j (fun sq => { sq with revealed := true })
    (fun sq => !sq.revealed) hil hjl
  simp only [hunrev, Bool.not_false, Bool.not_true, if_true, if_false,
    Bool.false_eq_true, Bool.true_eq_false, ite_true, ite_false] at h
  exact h

/-- One extra unit of fuel changes nothing once the fuel covers the number
of unrevealed squares: each productive call strictly decreases that count. -/
theorem revealAux_fuel_step :
    ∀ (fuel : Nat) (g : GameGrid) (i j : Nat), WF g → i < g.nrows →
      j < g.ncols → count2 (fun sq => !sq.revealed) g.tab ≤ fuel →
      GameGrid.revealAux fuel g i j = GameGrid.revealAux (fuel + 1) g i j := by
  intro fuel
  induction fuel with
  | zero =>
    intro g i j hwf hi hj hcount
    have hrev : (squareAt g.tab i j).revealed = true := by
      have := squareAt_of_count2_eq_zero (Nat.le_zero.mp hcount)
        (i := i) (j := j) (by rw [hwf.1]; exact hi)
        (by rw [hwf.row_len hi]; exact hj)
      simpa using this
    have hguard : (g.is_revealed i j || g.is_flagged i j) = true := by
      simp [GameGrid.is_revealed, GameGrid.square_at, hrev]
    simp only [GameGrid.revealAux, hguard, if_true, ite_true]
  | succ fuel ih =>
    intro g i j hwf hi hj hcount
    show GameGrid.revealAux (fuel + 1) g i j = GameGrid.revealAux (fuel + 1 + 1) g i j
    simp only [GameGrid.revealAux]
    by_cases hguard : (g.is_revealed i j || g.is_flagged i j) = true
    · rw [if_pos hguard, if_pos hguard]
    · rw [if_neg hguard, if_neg hguard]
      have hunrev : (squareAt g.tab i j).revealed = false := by
        simp only [Bool.or_eq_true, not_or, Bool.not_eq_true,
          GameGrid.is_revealed, GameGrid.square_at] at hguard
        exact hguard.1
      by_cases hcasc : (g.square_at i j).mined = false ∧
          (g.markRevealed i j).mines_nearby i j = 0
      · rw [if_pos hcasc, if_pos hcasc]
        have hwf1 : WF (g.markRevealed i j) := hwf.markRevealed i j
        have hmark := markRevealed_unrev_count hwf hi hj hunrev
        have hfold : ∀ (L : List (Nat × Nat)) (h : GameGrid), WF h →
            h.nrows = g.nrows → h.ncols = g.ncols →
            (∀ p ∈ L, p.1 < g.nrows ∧ p.2 < g.ncols) →
            count2 (fun sq => !sq.revealed) h.tab ≤ fuel →
            L.foldl (fun h p => GameGrid.revealAux fuel h p.1 p.2) h
              = L.foldl (fun h p => GameGrid.revealAux (fuel + 1) h p.1 p.2) h := by
          intro L
          induction L with
          | nil => intro h _ _ _ _ _; rfl
          | cons q L ihL =>
            intro h hwfh hr hc hb hcnt
            simp only [List.foldl_cons]
            have hq := hb q (List.mem_cons_self q L)
            have hq1 : q.1 < h.nrows := by rw [hr]; exact hq.1
            have hq2 : q.2 < h.ncols := by rw [hc]; exact hq.2
            rw [← ih h q.1 q.2 hwfh hq1 hq2 hcnt]
            have hrel := revealAux_rel fuel h q.1 q.2 hwfh hq1 hq2
            exact ihL _ (WF_of_revealRel hwfh hrel)
              (by rw [hrel.nrows_eq, hr]) (by rw [hrel.ncols_eq, hc])
              (fun p hp => hb p (List.mem_cons_of_mem q hp))
              (le_trans hrel.unrev_le hcnt)
        apply hfold
        · exact hwf1
        · rfl
        · rfl
        · intro p hp
          have := mem_neighbors.mp hp
          exact ⟨this.1, this.2.1⟩
        · omega
      · rw [if_neg hcasc, if_neg hcasc]

theorem revealAux_fuel_add (k : Nat) :
    ∀ (fuel : Nat) (g : GameGrid) (i j : Nat), WF g → i < g.nrows →
      j < g.ncols → count2 (fun sq => !sq.revealed) g.tab ≤ fuel →
      GameGrid.revealAux fuel g i j = GameGrid.revealAux (fuel + k) g i j := by
  induction k with
  | zero => intro fuel g i j _ _ _ _; rfl
  | succ k ihk =>
    intro fuel g i j hwf hi hj hcount
    rw [ihk fuel g i j hwf hi hj hcount,
      revealAux_fuel_step (fuel + k) g i j hwf hi hj
        (le_trans hcount (Nat.le_add_right _ _)), Nat.add_assoc]

/-- No table can hold more squares satisfying `p` than its area. -/
theorem count2_le_area {g : GameGrid} (hwf : WF g) (p : Square → Bool) :
    count2 p g.tab ≤ g.nrows * g.ncols := by
  unfold count2
  calc (g.tab.map (fun row => row.countP p)).sum
      ≤ (g.tab.map (fun row => row.countP p)).length * g.ncols := by
        apply List.sum_le_card_nsmul
        intro x hx
        obtain ⟨row, hrow, rfl⟩ := List.mem_map.mp hx
        rw [← hwf.2 row hrow]
        exact List.countP_le_length _
    _ = g.nrows * g.ncols := by rw [List.length_map, hwf.1]

/-- C1: `game_lost()` is true iff at least one mined cell is revealed;
`game_won()` is true iff `game_lost()` is false and `rows*cols -
revealed_count` equals `mine_count`; consequently the two predicates are
never both true, in any state. -/
theorem claim_C1_win_loss (g : GameGrid) :
    (g.game_lost = true ↔ ∃ i, i < g.nrows ∧ ∃ j, j < g.ncols ∧
      (g.mine_at i j = true ∧ g.is_revealed i j = true)) ∧
    (g.game_won = true ↔ (g.game_lost = false ∧
      (g.nrows : Int) * (g.ncols : Int) - g.squares_revealed = g.nmines)) ∧
    (g.game_won && g.game_lost) = false := by
  refine ⟨?_, ?_, ?_⟩
  · unfold GameGrid.game_lost
    simp [List.any_eq_true, List.mem_range, Bool.and_eq_true]
  · unfold GameGrid.game_won
    simp [Bool.and_eq_true, Bool.not_eq_true', beq_iff_eq]
  · unfold GameGrid.game_won
    cases h : g.game_lost
    · simp [h]
    · simp [h]

theorem claim_C1_witness :
    ((GameGrid.init 2 2).game_won && (GameGrid.init 2 2).game_lost) = false :=
  (claim_C1_win_loss (GameGrid.init 2 2)).2.2

/-- C2 counterexample: the claim asserts that after `reveal(0,0)` on a 3×3
board with the only mine at (2,2), cell (1,1) has `mines_nearby` 0 and
cell (2,0) has `mines_nearby` 1.  The code computes 1 at (1,1) — it is
diagonally adjacent to the mine — and 0 at (2,0), which is not adjacent. -/
theorem claim_C2_counterexample :
    ¬(demoGrid3r.mines_nearby 1 1 = 0 ∧ demoGrid3r.mines_nearby 2 0 = 1) ∧
    demoGrid3r.mines_nearby 1 1 = 1 ∧ demoGrid3r.mines_nearby 2 0 = 0 := by
  decide

/-- C2 (amended): starting from the 3×3 board whose only mine is at (2,2)
with nothing revealed or flagged, `reveal(0,0)` reveals exactly the eight
non-mined cells and leaves (2,2) unrevealed; the revealed cells
(0,0),(0,1),(0,2),(1,0),(2,0) carry `mines_nearby` 0 and
(1,1),(1,2),(2,1) carry `mines_nearby` 1. -/
theorem claim_C2_flood_fill :
    (demoGrid3.squares_revealed = 0 ∧ demoGrid3.nflags = 0) ∧
    (demoGrid3r.is_revealed 0 0 = true ∧ demoGrid3r.is_revealed 0 1 = true ∧
      demoGrid3r.is_revealed 0 2 = true ∧ demoGrid3r.is_revealed 1 0 = true ∧
      demoGrid3r.is_revealed 1 1 = true ∧ demoGrid3r.is_revealed 1 2 = true ∧
      demoGrid3r.is_revealed 2 0 = true ∧ demoGrid3r.is_revealed 2 1 = true ∧
      demoGrid3r.is_revealed 2 2 = false) ∧
    (demoGrid3r.mines_nearby 0 0 = 0 ∧ demoGrid3r.mines_nearby 0 1 = 0 ∧
      demoGrid3r.mines_nearby 0 2 = 0 ∧ demoGrid3r.mines_nearby 1 0 = 0 ∧
      demoGrid3r.mines_nearby 2 0 = 0) ∧
    (demoGrid3r.mines_nearby 1 1 = 1 ∧ demoGrid3r.mines_nearby 1 2 = 1 ∧
      demoGrid3r.mines_nearby 2 1 = 1) := by
  decide

/-- C3 counterexample: a reachable state (reveal(0,0) on a blank 1×2
board) in which `place_flag` on the revealed, unflagged cell (0,0) is not
a no-op: it flags the revealed cell and changes the state. -/
theorem claim_C3_counterexample :
    revealedGrid.is_revealed 0 0 = true ∧
    revealedGrid.is_flagged 0 0 = false ∧
    revealedGrid.place_flag 0 0 ≠ revealedGrid ∧
    (revealedGrid.place_flag 0 0).is_revealed 0 0 = true ∧
    (revealedGrid.place_flag 0 0).is_flagged 0 0 = true := by
  decide

/-- C3 (amended): `place_flag` never consults `revealed`.  On any
well-formed state, flagging an in-bounds revealed-but-unflagged cell flags
it and increments `nflags` — it is not a no-op, and it produces a cell
that is simultaneously revealed and flagged, a state reachable through
the public operations (see the counterexample). -/
theorem claim_C3_place_flag_on_revealed (g : GameGrid) (i j : Nat)
    (hwf : WF g) (hi : i < g.nrows) (hj : j < g.ncols)
    (hrev : g.is_revealed i j = true) (hnf : g.is_flagged i j = false) :
    (g.place_flag i j).is_flagged i j = true ∧
    (g.place_flag i j).is_revealed i j = true ∧
    (g.place_flag i j).nflags = g.nflags + 1 ∧
    g.place_flag i j ≠ g := by
  have hil : i < g.tab.length := by rw [hwf.1]; exact hi
  have hjl : j < (g.tab.getD i []).length := by rw [hwf.row_len hi]; exact hj
  have hflag : (g.square_at i j).flagged = false := hnf
  have hself := squareAt_modify2_self g.tab i j
    (fun sq => { sq with flagged := true }) hil hjl
  have h1 : (g.place_flag i j).is_flagged i j = true := by
    unfold GameGrid.place_flag
    rw [if_pos hflag]
    simp only [GameGrid.is_flagged, GameGrid.square_at, GameGrid.setSquare]
    rw [hself]
  have h2 : (g.place_flag i j).is_revealed i j = true := by
    unfold GameGrid.place_flag
    rw [if_pos hflag]
    simp only [GameGrid.is_revealed, GameGrid.square_at, GameGrid.setSquare]
    rw [hself]
    exact hrev
  have h3 : (g.place_flag i j).nflags = g.nflags + 1 := by
    unfold GameGrid.place_flag
    rw [if_pos hflag]
  have h4 : g.place_flag i j ≠ g := by
    intro he
    rw [he, hnf] at h1
    exact absurd h1 (by simp)
  exact ⟨h1, h2, h3, h4⟩

theorem claim_C3_witness :
    (revealedGrid.place_flag 0 0).is_flagged 0 0 = true ∧
    (revealedGrid.place_flag 0 0).is_revealed 0 0 = true ∧
    (revealedGrid.place_flag 0 0).nflags = revealedGrid.nflags + 1 ∧
    revealedGrid.place_flag 0 0 ≠ revealedGrid :=
  claim_C3_place_flag_on_revealed revealedGrid 0 0 (by decide) (by decide)
    (by decide) (by decide) (by decide)

/-- C6: when the flagged-neighbor count at (i,j) equals `mines_nearby`,
`chording` folds `reveal` (with its full cascade semantics) over every
neighbor; otherwise it returns the state unchanged. -/
theorem claim_C6_chording (g : GameGrid) (i j : Nat) :
    (g.flags_nearby i j = g.mines_nearby i j →
      g.chording i j
        = (g.neighbors i j).foldl (fun h p => h.reveal p.1 p.2) g) ∧
    (g.flags_nearby i j ≠ g.mines_nearby i j → g.chording i j = g) := by
  unfold GameGrid.chording
  constructor
  · intro h; rw [if_pos h]
  · intro h; rw [if_neg h]

theorem claim_C6_witness :
    chordGrid.flags_nearby 0 0 = chordGrid.mines_nearby 0 0 ∧
    chordGrid.chording 0 0
      = (chordGrid.neighbors 0 0).foldl (fun h p => h.reveal p.1 p.2) chordGrid ∧
    mineGrid2.flags_nearby 0 0 ≠ mineGrid2.mines_nearby 0 0 ∧
    mineGrid2.chording 0 0 = mineGrid2 :=
  ⟨by decide, (claim_C6_chording chordGrid 0 0).1 (by decide),
    by decide, (claim_C6_chording mineGrid2 0 0).2 (by decide)⟩

/-- C8: the four silent no-op conditions.  Revealing an already-revealed
or flagged cell, flagging a flagged cell, unflagging an unflagged cell,
and chording with a mismatched count each return the state unchanged (the
embedding is total, mirroring the source, which raises nothing here). -/
theorem claim_C8_noop_conditions :
    (∀ (g : GameGrid) (i j : Nat),
      (g.is_revealed i j || g.is_flagged i j) = true → g.reveal i j = g) ∧
    (∀ (g : GameGrid) (i j : Nat),
      g.is_flagged i j = true → g.place_flag i j = g) ∧
    (∀ (g : GameGrid) (i j : Nat),
      g.is_flagged i j = false → g.remove_flag i j = g) ∧
    (∀ (g : GameGrid) (i j : Nat),
      g.flags_nearby i j ≠ g.mines_nearby i j → g.chording i j = g) := by
  refine ⟨?_, ?_, ?_, ?_⟩
  · intro g i j h
    unfold GameGrid.reveal
    simp only [GameGrid.revealAux]
    rw [if_pos h]
  · intro g i j h
    unfold GameGrid.is_flagged at h
    unfold GameGrid.place_flag
    rw [if_neg (by rw [h]; simp)]
  · intro g i j h
    unfold GameGrid.is_flagged at h
    unfold GameGrid.remove_flag
    rw [if_neg (by rw [h]; simp)]
  · intro g i j h
    unfold GameGrid.chording
    rw [if_neg h]

theorem claim_C8_witness :
    ((revealedGrid.is_revealed 0 0 || revealedGrid.is_flagged 0 0) = true ∧
      revealedGrid.reveal 0 0 = revealedGrid) ∧
    (chordGrid.is_flagged 1 1 = true ∧ chordGrid.place_flag 1 1 = chordGrid) ∧
    (mineGrid2.is_flagged 0 1 = false ∧
      mineGrid2.remove_flag 0 1 = mineGrid2) ∧
    (mineGrid2.flags_nearby 0 0 ≠ mineGrid2.mines_nearby 0 0 ∧
      mineGrid2.chording 0 0 = mineGrid2) :=
  ⟨⟨by decide, claim_C8_noop_conditions.1 revealedGrid 0 0 (by decide)⟩,
    ⟨by decide, claim_C8_noop_conditions.2.1 chordGrid 1 1 (by decide)⟩,
    ⟨by decide, claim_C8_noop_conditions.2.2.1 mineGrid2 0 1 (by decide)⟩,
    ⟨by decide, claim_C8_noop_conditions.2.2.2 mineGrid2 0 0 (by decide)⟩⟩

/-- C9: on a well-formed finite board, the recursive reveal needs at most
`nrows * ncols` productive steps — any two fuels of at least the cell
count give the same result, and `reveal` computes that common value.
Each productive call strictly decreases the number of unrevealed cells
(`markRevealed_unrev_count`), which is what bounds the recursion. -/
theorem claim_C9_reveal_terminates (g : GameGrid) (i j fuel1 fuel2 : Nat)
    (hwf : WF g) (hi : i < g.nrows) (hj : j < g.ncols)
    (h1 : g.nrows * g.ncols ≤ fuel1) (h2 : g.nrows * g.ncols ≤ fuel2) :
    GameGrid.revealAux fuel1 g i j = GameGrid.revealAux fuel2 g i j ∧
    g.reveal i j = GameGrid.revealAux fuel1 g i j := by
  have hc : count2 (fun sq => !sq.revealed) g.tab ≤ g.nrows * g.ncols :=
    count2_le_area hwf _
  have key : ∀ fuel, g.nrows * g.ncols ≤ fuel →
      GameGrid.revealAux fuel g i j
        = GameGrid.revealAux (g.nrows * g.ncols) g i j := by
    intro fuel hf
    have h := revealAux_fuel_add (fuel - g.nrows * g.ncols)
      (g.nrows * g.ncols) g i j hwf hi hj hc
    rw [Nat.add_sub_cancel' hf] at h
    exact h.symm
  refine ⟨?_, ?_⟩
  · rw [key fuel1 h1, key fuel2 h2]
  · unfold GameGrid.reveal
    rw [key _ (Nat.le_succ _), key fuel1 h1]

theorem claim_C9_witness :
    GameGrid.revealAux 4 (GameGrid.init 2 2) 0 0
      = GameGrid.revealAux 5 (GameGrid.init 2 2) 0 0 ∧
    (GameGrid.init 2 2).reveal 0 0 = GameGrid.revealAux 4 (GameGrid.init 2 2) 0 0 :=
  claim_C9_reveal_terminates (GameGrid.init 2 2) 0 0 4 5 (by decide)
    (by decide) (by decide) (by decide) (by decide)

/-- C10: when `mine_total` exceeds `rows*cols`, `random_game` raises only
after `self.reset()` has run, so the post-call board is the fully blank
reset board — all cells blank and all counters zero — not the pre-call
state. -/
theorem claim_C10_failed_new_game_resets (g : GameGrid) (n : Nat)
    (sample : List (Nat × Nat)) (h : g.nrows * g.ncols < n) :
    g.random_game n sample
      = (g.reset, some "ValueError: Sample larger than population or is negative") ∧
    (∀ row ∈ (g.reset).tab, ∀ sq ∈ row, sq.revealed = false ∧
      sq.flagged = false ∧ sq.mined = false ∧ sq.mines_nearby = 0) ∧
    (g.reset).nmines = 0 ∧ (g.reset).nflags = 0 ∧
    (g.reset).squares_revealed = 0 := by
  refine ⟨?_, ?_, rfl, rfl, rfl⟩
  · simp only [GameGrid.random_game, GameGrid.reset]
    rw [if_neg (Nat.not_le.mpr h)]
  · intro row hrow sq hsq
    simp only [GameGrid.reset] at hrow
    obtain ⟨row0, _, rfl⟩ := List.mem_map.mp hrow
    obtain ⟨sq0, _, rfl⟩ := List.mem_map.mp hsq
    exact ⟨rfl, rfl, rfl, rfl⟩

theorem claim_C10_witness :
    (demoGrid3r.random_game 10 []
        = (demoGrid3r.reset,
            some "ValueError: Sample larger than population or is negative") ∧
      (∀ row ∈ (demoGrid3r.reset).tab, ∀ sq ∈ row, sq.revealed = false ∧
        sq.flagged = false ∧ sq.mined = false ∧ sq.mines_nearby = 0) ∧
      (demoGrid3r.reset).nmines = 0 ∧ (demoGrid3r.reset).nflags = 0 ∧
      (demoGrid3r.reset).squares_revealed = 0) ∧
    demoGrid3r.reset ≠ demoGrid3r :=
  ⟨claim_C10_failed_new_game_resets demoGrid3r 10 [] (by decide), by decide⟩

theorem modify2_oob (tab : List (List Square)) (i j : Nat) (f : Square → Square)
    (h : ¬(i < tab.length ∧ j < (tab.getD i []).length)) :
    modify2 tab i j f = tab := by
  unfold modify2
  rcases Nat.lt_or_ge i tab.length with hi | hi
  · have hj : (tab.getD i []).length ≤ j := by
      rcases Nat.lt_or_ge j (tab.getD i []).length with hj | hj
      · exact absurd ⟨hi, hj⟩ h
      · exact hj
    exact modifyL_of_fix _ _ _ [] (modifyL_of_le _ _ _ hj)
  · exact modifyL_of_le _ _ _ hi

/-- A field that `f` leaves unchanged is unchanged at every position by a
`modify2`, in or out of bounds. -/
theorem squareAt_modify2_map {β : Type} (P : Square → β)
    (tab : List (List Square)) (i j x y : Nat) (f : Square → Square)
    (hf : ∀ sq, P (f sq) = P sq) :
    P (squareAt (modify2 tab i j f) x y) = P (squareAt tab x y) := by
  by_cases hxy : x = i ∧ y = j
  · obtain ⟨rfl, rfl⟩ := hxy
    by_cases hb : x < tab.length ∧ y < (tab.getD x []).length
    · rw [squareAt_modify2_self _ _ _ _ hb.1 hb.2, hf]
    · rw [modify2_oob _ _ _ _ hb]
  · rw [squareAt_modify2_ne _ _ _ _ _ _ hxy]

theorem WF_init (R C : Nat) : WF (GameGrid.init R C) := by
  constructor
  · simp [GameGrid.init]
  · intro row hrow
    simp only [GameGrid.init, List.mem_map, List.mem_range] at hrow
    obtain ⟨i, _, rfl⟩ := hrow
    simp [GameGrid.init]

theorem WF_reset {g : GameGrid} (hwf : WF g) : WF (g.reset) := by
  constructor
  · simp only [GameGrid.reset, List.length_map]
    exact hwf.1
  · intro row hrow
    simp only [GameGrid.reset, List.mem_map] at hrow
    obtain ⟨row0, hrow0, rfl⟩ := hrow
    simp only [GameGrid.reset, List.length_map]
    exact hwf.2 row0 hrow0

/-- A predicate refuted by every freshly reset square counts zero squares
on a reset table. -/
theorem count2_reset_zero (g : GameGrid) (p : Square → Bool)
    (hp : ∀ sq, p (Square.reset sq) = false) :
    count2 p (g.reset).tab = 0 := by
  show count2 p (g.tab.map (fun row => row.map Square.reset)) = 0
  unfold count2
  apply List.sum_eq_zero
  intro x hx
  simp only [List.map_map, List.mem_map] at hx
  obtain ⟨row, _, rfl⟩ := hx
  simp only [Function.comp]
  rw [List.countP_map]
  apply List.countP_eq_zero.mpr
  intro sq _
  simp [Function.comp, hp sq]

/-- A predicate refuted by every freshly initialized square counts zero
squares on a fresh table. -/
theorem count2_init_zero (R C : Nat) (p : Square → Bool)
    (hp : ∀ i j, p (Square.init i j) = false) :
    count2 p (GameGrid.init R C).tab = 0 := by
  show count2 p ((List.range R).map (fun i =>
    (List.range C).map (fun j => Square.init i j))) = 0
  unfold count2
  apply List.sum_eq_zero
  intro x hx
  simp only [List.map_map, List.mem_map] at hx
  obtain ⟨i, _, rfl⟩ := hx
  simp only [Function.comp]
  rw [List.countP_map]
  apply List.countP_eq_zero.mpr
  intro j _
  simp [Function.comp, hp i j]

theorem squareAt_reset (g : GameGrid) (x y : Nat) (hx : x < g.tab.length)
    (hy : y < (g.tab.getD x []).length) :
    squareAt (g.reset).tab x y = Square.reset (squareAt g.tab x y) := by
  show squareAt (g.tab.map (fun row => row.map Square.reset)) x y = _
  have h1 : (g.tab.map (fun row => row.map Square.reset)).getD x []
      = (g.tab.getD x []).map Square.reset := by
    rw [List.getD_eq_getElem _ _ (by simpa using hx), List.getElem_map,
      List.getD_eq_getElem _ _ hx]
  have h2 : ((g.tab.getD x []).map Square.reset).getD y defaultSquare
      = Square.reset ((g.tab.getD x []).getD y defaultSquare) := by
    rw [List.getD_eq_getElem _ _ (by simpa using hy), List.getElem_map,
      List.getD_eq_getElem _ _ hy]
  unfold squareAt
  rw [h1, h2]

/-- Any `Square` field other than `mines_nearby` is untouched, everywhere,
by the neighbor-increment fold of `place_mine`. -/
theorem foldIncr_map {β : Type} (P : Square → β)
    (hf : ∀ sq, P { sq with mines_nearby := sq.mines_nearby + 1 } = P sq) :
    ∀ (L : List (Nat × Nat)) (g : GameGrid) (x y : Nat),
      P (squareAt (L.foldl (fun h p => h.setSquare p.1 p.2
          (fun sq => { sq with mines_nearby := sq.mines_nearby + 1 })) g).tab x y)
        = P (squareAt g.tab x y) := by
  intro L
  induction L with
  | nil => intro g x y; rfl
  | cons q L ihL =>
    intro g x y
    simp only [List.foldl_cons]
    rw [ihL]
    exact squareAt_modify2_map P g.tab q.1 q.2 x y _ hf

/-- A count of squares by a `mines_nearby`-blind predicate is untouched by
the neighbor-increment fold of `place_mine`. -/
theorem foldIncr_count2 (p : Square → Bool)
    (hp : ∀ sq, p { sq with mines_nearby := sq.mines_nearby + 1 } = p sq) :
    ∀ (L : List (Nat × Nat)) (g : GameGrid),
      count2 p (L.foldl (fun h p => h.setSquare p.1 p.2
          (fun sq => { sq with mines_nearby := sq.mines_nearby + 1 })) g).tab
        = count2 p g.tab := by
  intro L
  induction L with
  | nil => intro g; rfl
  | cons q L ihL =>
    intro g
    simp only [List.foldl_cons]
    rw [ihL]
    exact count2_modify2_invar g.tab q.1 q.2 _ p (hp _)

/-- Dimensions, counters and shape are untouched by the neighbor-increment
fold of `place_mine`. -/
theorem foldIncr_misc :
    ∀ (L : List (Nat × Nat)) (g : GameGrid),
      (L.foldl (fun h p => h.setSquare p.1 p.2
          (fun sq => { sq with mines_nearby := sq.mines_nearby + 1 })) g).nrows = g.nrows ∧
      (L.foldl (fun h p => h.setSquare p.1 p.2
          (fun sq => { sq with mines_nearby := sq.mines_nearby + 1 })) g).ncols = g.ncols ∧
      (L.foldl (fun h p => h.setSquare p.1 p.2
          (fun sq => { sq with mines_nearby := sq.mines_nearby + 1 })) g).nmines = g.nmines ∧
      (L.foldl (fun h p => h.setSquare p.1 p.2
          (fun sq => { sq with mines_nearby := sq.mines_nearby + 1 })) g).nflags = g.nflags ∧
      (L.foldl (fun h p => h.setSquare p.1 p.2
          (fun sq => { sq with mines_nearby := sq.mines_nearby + 1 })) g).squares_revealed = g.squares_revealed ∧
      (L.foldl (fun h p => h.setSquare p.1 p.2
          (fun sq => { sq with mines_nearby := sq.mines_nearby + 1 })) g).tab.length = g.tab.length ∧
      ∀ x, ((L.foldl (fun h p => h.setSquare p.1 p.2
          (fun sq => { sq with mines_nearby := sq.mines_nearby + 1 })) g).tab.getD x []).length
        = (g.tab.getD x []).length := by
  intro L
  induction L with
  | nil => exact fun g => ⟨rfl, rfl, rfl, rfl, rfl, rfl, fun _x => rfl⟩
  | cons q L ihL =>
    intro g
    simp only [List.foldl_cons]
    obtain ⟨h1, h2, h3, h4, h5, h6, h7⟩ := ihL (g.setSquare q.1 q.2 _)
    refine ⟨h1, h2, h3, h4, h5, ?_, ?_⟩
    · rw [h6]; exact modify2_length _ _ _ _
    · intro x; rw [h7 x]; exact modify2_row_length _ _ _ _ _

/-- The neighbor-increment fold raises `mines_nearby` at an in-bounds cell
by exactly its number of occurrences in the fold list. -/
theorem foldIncr_mines_nearby :
    ∀ (L : List (Nat × Nat)) (g : GameGrid) (x y : Nat),
      x < g.tab.length → y < (g.tab.getD x []).length →
      (squareAt (L.foldl (fun h p => h.setSquare p.1 p.2
          (fun sq => { sq with mines_nearby := sq.mines_nearby + 1 })) g).tab x y).mines_nearby
        = (squareAt g.tab x y).mines_nearby
          + L.countP (fun q => decide (q = (x, y))) := by
  intro L
  induction L with
  | nil => intro g x y _ _; simp
  | cons q L ihL =>
    intro g x y hx hy
    simp only [List.foldl_cons, List.countP_cons]
    have hx1 : x < (g.setSquare q.1 q.2
        (fun sq => { sq with mines_nearby := sq.mines_nearby + 1 })).tab.length := by
      show x < (modify2 g.tab q.1 q.2 _).length
      rw [modify2_length]; exact hx
    have hy1 : y < ((g.setSquare q.1 q.2
        (fun sq => { sq with mines_nearby := sq.mines_nearby + 1 })).tab.getD x []).length := by
      show y < ((modify2 g.tab q.1 q.2 _).getD x []).length
      rw [modify2_row_length]; exact hy
    rw [ihL _ x y hx1 hy1]
    by_cases hq : x = q.1 ∧ y = q.2
    · obtain ⟨rfl, rfl⟩ := hq
      have hself : squareAt (g.setSquare q.1 q.2
          (fun sq => { sq with mines_nearby := sq.mines_nearby + 1 })).tab q.1 q.2
          = { (squareAt g.tab q.1 q.2) with
              mines_nearby := (squareAt g.tab q.1 q.2).mines_nearby + 1 } :=
        squareAt_modify2_self g.tab q.1 q.2 _ hx hy
      rw [hself]
      have hdec : (decide (q = (q.1, q.2)) : Bool) = true := by
        simp
      rw [hdec]
      simp
      omega
    · have hne : squareAt (g.setSquare q.1 q.2
          (fun sq => { sq with mines_nearby := sq.mines_nearby + 1 })).tab x y
          = squareAt g.tab x y :=
        squareAt_modify2_ne g.tab q.1 q.2 x y _ hq
      rw [hne]
      have hdec : (decide (q = (x, y)) : Bool) = false := by
        simp only [decide_eq_false_iff_not]
        intro hqe
        exact hq ⟨by rw [hqe], by rw [hqe]⟩
      rw [hdec]
      simp


/-- In a duplicate-free list, an element occurs once if present, else not
at all. -/
theorem countP_eq_of_nodup {α : Type} [DecidableEq α] (L : List α)
    (hnd : L.Nodup) (a : α) :
    L.countP (fun q => decide (q = a)) = if a ∈ L then 1 else 0 := by
  induction L with
  | nil => simp
  | cons b L ih =>
    rw [List.countP_cons]
    have hnd2 := List.nodup_cons.mp hnd
    by_cases hab : b = a
    · subst hab
      have hnotmem : ¬b ∈ L := hnd2.1
      rw [ih hnd2.2]
      simp [hnotmem]
    · rw [ih hnd2.2]
      have hd : (decide (b = a) : Bool) = false := by simp [hab]
      rw [hd]
      by_cases hmem : a ∈ L <;> simp [hmem, List.mem_cons, Ne.symm hab]

theorem place_mine_of_mined {g : GameGrid} {i j : Nat}
    (h : (g.square_at i j).mined = true) : g.place_mine i j = g := by
  unfold GameGrid.place_mine
  rw [if_pos h]

theorem markMined_tab (g : GameGrid) (i j : Nat) :
    (g.markMined i j).tab
      = modify2 g.tab i j (fun sq => { sq with mined := true }) := rfl

theorem place_mine_eq {g : GameGrid} {i j : Nat}
    (h : ¬((g.square_at i j).mined = true)) :
    g.place_mine i j
      = { ((g.markMined i j).neighbors i j).foldl
            (fun h p => h.setSquare p.1 p.2
              (fun sq => { sq with mines_nearby := sq.mines_nearby + 1 }))
            (g.markMined i j) with
          nmines := g.nmines + 1 } := by
  unfold GameGrid.place_mine
  rw [if_neg h]

/-- Dimensions, shape, the flag and reveal bookkeeping and every square's
`flagged` / `revealed` field survive `place_mine` unconditionally. -/
theorem place_mine_frame (g : GameGrid) (i j : Nat) :
    (g.place_mine i j).nrows = g.nrows ∧
    (g.place_mine i j).ncols = g.ncols ∧
    (g.place_mine i j).nflags = g.nflags ∧
    (g.place_mine i j).squares_revealed = g.squares_revealed ∧
    (g.place_mine i j).tab.length = g.tab.length ∧
    (∀ x, ((g.place_mine i j).tab.getD x []).length = (g.tab.getD x []).length) ∧
    (∀ x y, (squareAt (g.place_mine i j).tab x y).flagged
      = (squareAt g.tab x y).flagged) ∧
    (∀ x y, (squareAt (g.place_mine i j).tab x y).revealed
      = (squareAt g.tab x y).revealed) ∧
    count2 (fun sq => sq.flagged) (g.place_mine i j).tab
      = count2 (fun sq => sq.flagged) g.tab ∧
    count2 (fun sq => sq.revealed) (g.place_mine i j).tab
      = count2 (fun sq => sq.revealed) g.tab := by
  by_cases hm : (g.square_at i j).mined = true
  · rw [place_mine_of_mined hm]
    exact ⟨rfl, rfl, rfl, rfl, rfl, fun _x => rfl, fun _x _y => rfl,
      fun _x _y => rfl, rfl, rfl⟩
  · rw [place_mine_eq hm]
    obtain ⟨m1, m2, m3, m4, m5, m6, m7⟩ :=
      foldIncr_misc ((g.markMined i j).neighbors i j) (g.markMined i j)
    refine ⟨m1, m2, m4, m5, ?_, ?_, ?_, ?_, ?_, ?_⟩
    · exact m6.trans (modify2_length _ _ _ _)
    · exact fun x => (m7 x).trans (modify2_row_length _ _ _ _ _)
    · intro x y
      exact (foldIncr_map (fun sq => sq.flagged) (fun _sq => rfl) _ _ x y).trans
        (squareAt_modify2_map (fun sq => sq.flagged) g.tab i j x y _
          (fun _sq => rfl))
    · intro x y
      exact (foldIncr_map (fun sq => sq.revealed) (fun _sq => rfl) _ _ x y).trans
        (squareAt_modify2_map (fun sq => sq.revealed) g.tab i j x y _
          (fun _sq => rfl))
    · exact (foldIncr_count2 (fun sq => sq.flagged) (fun _sq => rfl) _ _).trans
        (count2_modify2_invar g.tab i j _ _ rfl)
    · exact (foldIncr_count2 (fun sq => sq.revealed) (fun _sq => rfl) _ _).trans
        (count2_modify2_invar g.tab i j _ _ rfl)

theorem place_mine_WF {g : GameGrid} (hwf : WF g) (i j : Nat) :
    WF (g.place_mine i j) := by
  obtain ⟨h1, h2, _, _, h5, h6, _⟩ := place_mine_frame g i j
  exact WF_of_shape hwf h1 h2 h5 h6

/-- Effect of a successful `place_mine` on the mine bookkeeping: `nmines`
and the mined-cell count each rise by one, the mined flags change exactly
at `(i, j)`, and every in-bounds cell's `mines_nearby` rises by its number
of occurrences in `neighbors(i, j)`. -/
theorem place_mine_spec {g : GameGrid} (hwf : WF g) {i j : Nat}
    (hi : i < g.nrows) (hj : j < g.ncols)
    (hnm : (squareAt g.tab i j).mined = false) :
    (g.place_mine i j).nmines = g.nmines + 1 ∧
    count2 (fun sq => sq.mined) (g.place_mine i j).tab
      = count2 (fun sq => sq.mined) g.tab + 1 ∧
    (∀ x y, (squareAt (g.place_mine i j).tab x y).mined
      = ((squareAt g.tab x y).mined || decide (x = i ∧ y = j))) ∧
    (∀ x y, x < g.tab.length → y < (g.tab.getD x []).length →
      (squareAt (g.place_mine i j).tab x y).mines_nearby
        = (squareAt g.tab x y).mines_nearby
          + (g.neighbors i j).countP (fun q => decide (q = (x, y)))) := by
  have hil : i < g.tab.length := by rw [hwf.1]; exact hi
  have hjl : j < (g.tab.getD i []).length := by rw [hwf.row_len hi]; exact hj
  have hm : ¬((g.square_at i j).mined = true) := by
    show ¬((squareAt g.tab i j).mined = true)
    rw [hnm]; simp
  refine ⟨?_, ?_, ?_, ?_⟩
  · rw [place_mine_eq hm]
  · have h2 : count2 (fun sq => sq.mined) (g.place_mine i j).tab
        = count2 (fun sq => sq.mined)
            (modify2 g.tab i j (fun sq => { sq with mined := true })) := by
      rw [place_mine_eq hm]
      exact foldIncr_count2 (fun sq => sq.mined) (fun _sq => rfl) _ _
    have h3 := count2_modify2 g.tab i j (fun sq => { sq with mined := true })
      (fun sq => sq.mined) hil hjl
    simp only [hnm, Bool.false_eq_true, if_false, if_true, ite_false,
      ite_true] at h3
    omega
  · intro x y
    have hstep : (squareAt (g.place_mine i j).tab x y).mined
        = (squareAt (modify2 g.tab i j
            (fun sq => { sq with mined := true })) x y).mined := by
      rw [place_mine_eq hm]
      exact foldIncr_map (fun sq => sq.mined) (fun _sq => rfl) _ _ x y
    rw [hstep]
    by_cases hxy : x = i ∧ y = j
    · obtain ⟨rfl, rfl⟩ := hxy
      rw [squareAt_modify2_self _ _ _ _ hil hjl]
      simp [hnm]
    · rw [squareAt_modify2_ne _ _ _ _ _ _ hxy]
      have hd : (decide (x = i ∧ y = j) : Bool) = false := by
        simp only [decide_eq_false_iff_not]
        exact hxy
      rw [hd, Bool.or_false]
  · intro x y hx hy
    have hb1 : x < (g.markMined i j).tab.length := by
      rw [markMined_tab, modify2_length]; exact hx
    have hb2 : y < ((g.markMined i j).tab.getD x []).length := by
      rw [markMined_tab, modify2_row_length]; exact hy
    have hstep : (squareAt (g.place_mine i j).tab x y).mines_nearby
        = (squareAt (g.markMined i j).tab x y).mines_nearby
          + (g.neighbors i j).countP (fun q => decide (q = (x, y))) := by
      rw [place_mine_eq hm]
      exact foldIncr_mines_nearby _ _ x y hb1 hb2
    rw [hstep]
    have hsame : (squareAt (g.markMined i j).tab x y).mines_nearby
        = (squareAt g.tab x y).mines_nearby :=
      squareAt_modify2_map (fun sq => sq.mines_nearby) g.tab i j x y _
        (fun _sq => rfl)
    rw [hsame]

theorem bool_eq_false {b : Bool} (h : ¬(b = true)) : b = false := by
  cases b
  · rfl
  · exact absurd rfl h

theorem isAdjacent_symm (i j x y : Nat) :
    isAdjacent i j x y ↔ isAdjacent x y i j := by
  simp only [isAdjacent]
  omega

theorem squareAt_init (R C x y : Nat) (hx : x < R) (hy : y < C) :
    squareAt (GameGrid.init R C).tab x y = Square.init x y := by
  show squareAt ((List.range R).map (fun i =>
    (List.range C).map (fun j => Square.init i j))) x y = _
  have h1 : ((List.range R).map (fun i =>
      (List.range C).map (fun j => Square.init i j))).getD x []
      = (List.range C).map (fun j => Square.init x j) := by
    rw [List.getD_eq_getElem _ _ (by simpa using hx), List.getElem_map,
      List.getElem_range]
  have h2 : ((List.range C).map (fun j => Square.init x j)).getD y defaultSquare
      = Square.init x y := by
    rw [List.getD_eq_getElem _ _ (by simpa using hy), List.getElem_map,
      List.getElem_range]
  unfold squareAt
  rw [h1, h2]

/-- A successful `place_mine` at (i,j) raises the spec-side mined-neighbor
count of each cell by one exactly when that cell is adjacent to (i,j). -/
theorem minedNeighborCount_place_mine {g : GameGrid} (hwf : WF g) {i j : Nat}
    (hi : i < g.nrows) (hj : j < g.ncols)
    (hnm : (squareAt g.tab i j).mined = false) (x y : Nat) :
    minedNeighborCount (g.place_mine i j) x y
      = minedNeighborCount g x y + (if isAdjacent x y i j then 1 else 0) := by
  obtain ⟨f1, f2, _⟩ := place_mine_frame g i j
  obtain ⟨-, -, hpoint, -⟩ := place_mine_spec hwf hi hj hnm
  unfold minedNeighborCount
  rw [f1, f2]
  have hQ : ∀ p : Nat × Nat, (((g.place_mine i j).square_at p.1 p.2).mined = true
      ↔ ((g.square_at p.1 p.2).mined = true ∨ (p.1 = i ∧ p.2 = j))) := by
    intro p
    rw [show ((g.place_mine i j).square_at p.1 p.2).mined
        = ((squareAt g.tab p.1 p.2).mined || decide (p.1 = i ∧ p.2 = j))
      from hpoint p.1 p.2]
    simp [Bool.or_eq_true, GameGrid.square_at]
  by_cases hadj : isAdjacent x y i j
  · rw [if_pos hadj]
    have hset : ((Finset.range g.nrows ×ˢ Finset.range g.ncols).filter
          (fun p => isAdjacent x y p.1 p.2 ∧
            ((g.place_mine i j).square_at p.1 p.2).mined = true))
        = insert (i, j) ((Finset.range g.nrows ×ˢ Finset.range g.ncols).filter
          (fun p => isAdjacent x y p.1 p.2 ∧
            (g.square_at p.1 p.2).mined = true)) := by
      ext p
      obtain ⟨p1, p2⟩ := p
      simp only [Finset.mem_filter, Finset.mem_insert, Finset.mem_product,
        Finset.mem_range, hQ, Prod.mk.injEq]
      constructor
      · rintro ⟨⟨hp1, hp2⟩, hadjp, hmined | hpij⟩
        · exact Or.inr ⟨⟨hp1, hp2⟩, hadjp, hmined⟩
        · exact Or.inl hpij
      · rintro (⟨rfl, rfl⟩ | ⟨hmemp, hadjp, hmined⟩)
        · exact ⟨⟨hi, hj⟩, hadj, Or.inr ⟨rfl, rfl⟩⟩
        · exact ⟨hmemp, hadjp, Or.inl hmined⟩
    have hnotmem : (i, j) ∉ ((Finset.range g.nrows ×ˢ Finset.range g.ncols).filter
        (fun p => isAdjacent x y p.1 p.2 ∧ (g.square_at p.1 p.2).mined = true)) := by
      simp only [Finset.mem_filter]
      rintro ⟨-, -, hmined⟩
      rw [show (g.square_at i j).mined = (squareAt g.tab i j).mined from rfl,
        hnm] at hmined
      exact absurd hmined (by simp)
    rw [hset, Finset.card_insert_of_not_mem hnotmem]
  · rw [if_neg hadj, Nat.add_zero]
    have hcongr : ((Finset.range g.nrows ×ˢ Finset.range g.ncols).filter
          (fun p => isAdjacent x y p.1 p.2 ∧
            ((g.place_mine i j).square_at p.1 p.2).mined = true))
        = ((Finset.range g.nrows ×ˢ Finset.range g.ncols).filter
          (fun p => isAdjacent x y p.1 p.2 ∧
            (g.square_at p.1 p.2).mined = true)) := by
      apply Finset.filter_congr
      intro p _
      rw [hQ p]
      constructor
      · rintro ⟨hadjp, hmined | hpij⟩
        · exact ⟨hadjp, hmined⟩
        · exfalso
          apply hadj
          have : p = (i, j) := Prod.ext hpij.1 hpij.2
          rw [this] at hadjp
          exact hadjp
      · rintro ⟨hadjp, hmined⟩
        exact ⟨hadjp, Or.inl hmined⟩
    rw [hcongr]

theorem minesConsistent_init (R C : Nat) :
    MinesConsistent (GameGrid.init R C) := by
  intro x y hx hy
  rw [squareAt_init R C x y hx hy]
  show 0 = minedNeighborCount (GameGrid.init R C) x y
  unfold minedNeighborCount
  rw [eq_comm, Finset.card_eq_zero, Finset.filter_eq_empty_iff]
  rintro ⟨p1, p2⟩ hp
  simp only [Finset.mem_product, Finset.mem_range] at hp
  rintro ⟨-, hmined⟩
  rw [show ((GameGrid.init R C).square_at p1 p2).mined
      = (squareAt (GameGrid.init R C).tab p1 p2).mined from rfl,
    squareAt_init R C p1 p2 hp.1 hp.2] at hmined
  exact absurd hmined (by simp [Square.init])

theorem minesConsistent_place_mine {g : GameGrid} (hwf : WF g) {i j : Nat}
    (hi : i < g.nrows) (hj : j < g.ncols) (hcons : MinesConsistent g) :
    MinesConsistent (g.place_mine i j) := by
  by_cases hm : (squareAt g.tab i j).mined = true
  · rw [place_mine_of_mined hm]
    exact hcons
  · have hnm : (squareAt g.tab i j).mined = false := bool_eq_false hm
    intro x y hx hy
    obtain ⟨f1, f2, _⟩ := place_mine_frame g i j
    rw [f1] at hx
    rw [f2] at hy
    obtain ⟨-, -, -, hmn⟩ := place_mine_spec hwf hi hj hnm
    have hxl : x < g.tab.length := by rw [hwf.1]; exact hx
    have hyl : y < (g.tab.getD x []).length := by rw [hwf.row_len hx]; exact hy
    rw [hmn x y hxl hyl, hcons x y hx hy,
      minedNeighborCount_place_mine hwf hi hj hnm x y]
    congr 1
    rw [countP_eq_of_nodup _ (neighbors_nodup g i j) (x, y)]
    by_cases hmem : (x, y) ∈ g.neighbors i j
    · rw [if_pos hmem]
      have hadj := (mem_neighbors.mp hmem).2.2
      rw [if_pos ((isAdjacent_symm i j x y).mp hadj)]
    · rw [if_neg hmem]
      rw [if_neg (fun hadj => hmem (mem_neighbors.mpr
        ⟨hx, hy, (isAdjacent_symm x y i j).mp hadj⟩))]

theorem place_mine_idem {g : GameGrid} (hwf : WF g) {i j : Nat}
    (hi : i < g.nrows) (hj : j < g.ncols) :
    (g.place_mine i j).place_mine i j = g.place_mine i j := by
  by_cases hm : (squareAt g.tab i j).mined = true
  · rw [place_mine_of_mined hm, place_mine_of_mined hm]
  · obtain ⟨-, -, hpoint, -⟩ := place_mine_spec hwf hi hj (bool_eq_false hm)
    apply place_mine_of_mined
    show (squareAt (g.place_mine i j).tab i j).mined = true
    rw [hpoint i j]
    simp

/-- All shape facts and the §3.4 invariant carried through a fold of
`place_mine` calls. -/
theorem minesConsistent_fold (ops : List (Nat × Nat)) :
    ∀ (g : GameGrid), WF g → (∀ p ∈ ops, p.1 < g.nrows ∧ p.2 < g.ncols) →
      MinesConsistent g →
      WF (ops.foldl (fun h p => h.place_mine p.1 p.2) g) ∧
      (ops.foldl (fun h p => h.place_mine p.1 p.2) g).nrows = g.nrows ∧
      (ops.foldl (fun h p => h.place_mine p.1 p.2) g).ncols = g.ncols ∧
      MinesConsistent (ops.foldl (fun h p => h.place_mine p.1 p.2) g) := by
  induction ops with
  | nil => exact fun g hwf _ hcons => ⟨hwf, rfl, rfl, hcons⟩
  | cons q ops ih =>
    intro g hwf hb hcons
    simp only [List.foldl_cons]
    obtain ⟨f1, f2, _⟩ := place_mine_frame g q.1 q.2
    have hq := hb q (List.mem_cons_self q ops)
    have h1 := place_mine_WF hwf q.1 q.2
    have h2 := minesConsistent_place_mine hwf hq.1 hq.2 hcons
    obtain ⟨a, b, c, d⟩ := ih (g.place_mine q.1 q.2) h1
      (fun p hp => by
        rw [f1, f2]
        exact hb p (List.mem_cons_of_mem q hp)) h2
    exact ⟨a, b.trans f1, c.trans f2, d⟩

/-- C4: after any sequence of in-bounds `place_mine` calls on a fresh
board, every non-mined in-bounds cell's `mines_nearby` equals its exact
number of mined in-bounds neighbors; and `place_mine` twice at one
position equals `place_mine` once (second call is a no-op, so neighbor
counters and `nmines` are incremented only once). -/
theorem claim_C4_mine_placement (R C : Nat) (ops : List (Nat × Nat))
    (hb : ∀ p ∈ ops, p.1 < R ∧ p.2 < C) :
    (∀ i j, i < R → j < C →
      ((ops.foldl (fun h p => h.place_mine p.1 p.2) (GameGrid.init R C)).square_at i j).mined = false →
      ((ops.foldl (fun h p => h.place_mine p.1 p.2) (GameGrid.init R C)).square_at i j).mines_nearby
        = minedNeighborCount
            (ops.foldl (fun h p => h.place_mine p.1 p.2) (GameGrid.init R C)) i j) ∧
    (∀ (g : GameGrid) (i j : Nat), WF g → i < g.nrows → j < g.ncols →
      (g.place_mine i j).place_mine i j = g.place_mine i j) := by
  obtain ⟨-, hr, hc, hcons⟩ := minesConsistent_fold ops (GameGrid.init R C)
    (WF_init R C) (fun p hp => hb p hp) (minesConsistent_init R C)
  constructor
  · intro i j hi hj _hmined
    exact hcons i j (by rw [hr]; exact hi) (by rw [hc]; exact hj)
  · intro g i j hwf hi hj
    exact place_mine_idem hwf hi hj

theorem claim_C4_witness :
    (((([((2 : Nat), (2 : Nat)), ((2 : Nat), (2 : Nat))] : List (Nat × Nat)).foldl
        (fun h p => h.place_mine p.1 p.2) (GameGrid.init 3 3)).square_at 1 2).mines_nearby
      = minedNeighborCount
          (([((2 : Nat), (2 : Nat)), ((2 : Nat), (2 : Nat))] : List (Nat × Nat)).foldl
            (fun h p => h.place_mine p.1 p.2) (GameGrid.init 3 3)) 1 2) ∧
    ((GameGrid.init 3 3).place_mine 2 2).place_mine 2 2
      = (GameGrid.init 3 3).place_mine 2 2 :=
  ⟨(claim_C4_mine_placement 3 3 [(2, 2), (2, 2)] (by decide)).1 1 2
      (by decide) (by decide) (by decide),
    (claim_C4_mine_placement 3 3 [] (by decide)).2 (GameGrid.init 3 3) 2 2
      (by decide) (by decide) (by decide)⟩

/-- Folding `place_mine` over a duplicate-free list of in-bounds, not yet
mined positions adds exactly one mine per position and leaves the flag and
reveal state untouched. -/
theorem fold_place_mine_counts (sample : List (Nat × Nat)) :
    ∀ (g : GameGrid), WF g →
      (∀ p ∈ sample, p.1 < g.nrows ∧ p.2 < g.ncols) → sample.Nodup →
      (∀ p ∈ sample, (squareAt g.tab p.1 p.2).mined = false) →
      (sample.foldl (fun h p => h.place_mine p.1 p.2) g).nmines
        = g.nmines + sample.length ∧
      count2 (fun sq => sq.mined)
          (sample.foldl (fun h p => h.place_mine p.1 p.2) g).tab
        = count2 (fun sq => sq.mined) g.tab + sample.length ∧
      (sample.foldl (fun h p => h.place_mine p.1 p.2) g).nflags = g.nflags ∧
      (sample.foldl (fun h p => h.place_mine p.1 p.2) g).squares_revealed
        = g.squares_revealed ∧
      count2 (fun sq => sq.flagged)
          (sample.foldl (fun h p => h.place_mine p.1 p.2) g).tab
        = count2 (fun sq => sq.flagged) g.tab ∧
      count2 (fun sq => sq.revealed)
          (sample.foldl (fun h p => h.place_mine p.1 p.2) g).tab
        = count2 (fun sq => sq.revealed) g.tab := by
  induction sample with
  | nil =>
    intro g _ _ _ _
    simp
  | cons q sample ih =>
    intro g hwf hb hnd hfresh
    simp only [List.foldl_cons, List.length_cons]
    have hq := hb q (List.mem_cons_self q sample)
    have hqm := hfresh q (List.mem_cons_self q sample)
    obtain ⟨s1, s2, s3, -⟩ := place_mine_spec hwf hq.1 hq.2 hqm
    obtain ⟨f1, f2, f3, f4, -, -, -, -, f9, f10⟩ := place_mine_frame g q.1 q.2
    have hnd2 := List.nodup_cons.mp hnd
    obtain ⟨a1, a2, a3, a4, a5, a6⟩ := ih (g.place_mine q.1 q.2)
      (place_mine_WF hwf q.1 q.2)
      (fun p hp => by
        rw [f1, f2]
        exact hb p (List.mem_cons_of_mem q hp))
      hnd2.2
      (fun p hp => by
        rw [s3 p.1 p.2]
        have hne : ¬(p.1 = q.1 ∧ p.2 = q.2) := by
          intro hpq
          exact hnd2.1 (by
            have : q = p := Prod.ext hpq.1.symm hpq.2.symm
            rw [this]
            exact hp)
        rw [hfresh p (List.mem_cons_of_mem q hp)]
        simp [hne])
    refine ⟨?_, ?_, a3.trans f3, a4.trans f4, a5.trans f9, a6.trans f10⟩
    · rw [a1, s1]; omega
    · rw [a2, s2]; omega

/-- C5: on any well-formed board, `new_game(N)` driven by a valid
`random.sample` result (N distinct in-bounds positions) succeeds whenever
N is at most `rows*cols`, producing exactly N distinct mined cells,
`mine_count = N`, and nothing revealed or flagged; when N exceeds
`rows*cols` it raises the sampling `ValueError` instead of silently
placing fewer mines. -/
theorem claim_C5_new_game (g : GameGrid) (n : Nat) (sample : List (Nat × Nat))
    (hwf : WF g) :
    (n ≤ g.nrows * g.ncols → sample.length = n → sample.Nodup →
      (∀ p ∈ sample, p.1 < g.nrows ∧ p.2 < g.ncols) →
      (g.random_game n sample).2 = none ∧
      (g.random_game n sample).1.nmines = n ∧
      count2 (fun sq => sq.mined) (g.random_game n sample).1.tab = n ∧
      count2 (fun sq => sq.revealed) (g.random_game n sample).1.tab = 0 ∧
      count2 (fun sq => sq.flagged) (g.random_game n sample).1.tab = 0 ∧
      (g.random_game n sample).1.nflags = 0 ∧
      (g.random_game n sample).1.squares_revealed = 0) ∧
    (g.nrows * g.ncols < n →
      (g.random_game n sample).2
        = some "ValueError: Sample larger than population or is negative") := by
  constructor
  · intro hle hlen hnd hmem
    have hr : g.random_game n sample
        = (sample.foldl (fun h p => h.place_mine p.1 p.2) g.reset, none) := by
      simp only [GameGrid.random_game]
      rw [if_pos (show n ≤ g.reset.nrows * g.reset.ncols from hle)]
    obtain ⟨a1, a2, a3, a4, a5, a6⟩ := fold_place_mine_counts sample g.reset
      (WF_reset hwf)
      (fun p hp => hmem p hp)
      hnd
      (fun p hp => by
        have hp1 : p.1 < g.tab.length := by rw [hwf.1]; exact (hmem p hp).1
        have hp2 : p.2 < (g.tab.getD p.1 []).length := by
          rw [hwf.row_len (hmem p hp).1]; exact (hmem p hp).2
        rw [squareAt_reset g p.1 p.2 hp1 hp2]
        rfl)
    rw [hr]
    refine ⟨rfl, ?hnm, ?hcm, ?hcr, ?hcf, ?hnf, ?hsr⟩
    · show (sample.foldl (fun h p => h.place_mine p.1 p.2) g.reset).nmines = n
      rw [a1, hlen]
      show (0 : Int) + n = n
      omega
    · show count2 (fun sq => sq.mined)
          (sample.foldl (fun h p => h.place_mine p.1 p.2) g.reset).tab = n
      rw [a2, hlen, count2_reset_zero g (fun sq => sq.mined) (fun _sq => rfl)]
      omega
    · show count2 (fun sq => sq.revealed)
          (sample.foldl (fun h p => h.place_mine p.1 p.2) g.reset).tab = 0
      rw [a6, count2_reset_zero g (fun sq => sq.revealed) (fun _sq => rfl)]
    · show count2 (fun sq => sq.flagged)
          (sample.foldl (fun h p => h.place_mine p.1 p.2) g.reset).tab = 0
      rw [a5, count2_reset_zero g (fun sq => sq.flagged) (fun _sq => rfl)]
    · show (sample.foldl (fun h p => h.place_mine p.1 p.2) g.reset).nflags = 0
      rw [a3]
      rfl
    · show (sample.foldl (fun h p => h.place_mine p.1 p.2) g.reset).squares_revealed = 0
      rw [a4]
      rfl
  · intro hgt
    simp only [GameGrid.random_game]
    rw [if_neg (show ¬(n ≤ g.reset.nrows * g.reset.ncols) from Nat.not_le.mpr hgt)]

theorem claim_C5_witness :
    (((GameGrid.init 2 2).random_game 2 [(0, 0), (1, 1)]).2 = none ∧
      ((GameGrid.init 2 2).random_game 2 [(0, 0), (1, 1)]).1.nmines = 2 ∧
      count2 (fun sq => sq.mined)
        ((GameGrid.init 2 2).random_game 2 [(0, 0), (1, 1)]).1.tab = 2 ∧
      count2 (fun sq => sq.revealed)
        ((GameGrid.init 2 2).random_game 2 [(0, 0), (1, 1)]).1.tab = 0 ∧
      count2 (fun sq => sq.flagged)
        ((GameGrid.init 2 2).random_game 2 [(0, 0), (1, 1)]).1.tab = 0 ∧
      ((GameGrid.init 2 2).random_game 2 [(0, 0), (1, 1)]).1.nflags = 0 ∧
      ((GameGrid.init 2 2).random_game 2 [(0, 0), (1, 1)]).1.squares_revealed = 0) ∧
    ((GameGrid.init 2 2).random_game 5 []).2
      = some "ValueError: Sample larger than population or is negative" :=
  ⟨(claim_C5_new_game (GameGrid.init 2 2) 2 [(0, 0), (1, 1)] (by decide)).1
      (by decide) (by decide) (by decide) (by decide),
    (claim_C5_new_game (GameGrid.init 2 2) 5 [] (by decide)).2 (by decide)⟩

theorem reveal_rel {g : GameGrid} (hwf : WF g) {i j : Nat} (hi : i < g.nrows)
    (hj : j < g.ncols) : RevealRel g (g.reveal i j) := by
  unfold GameGrid.reveal
  exact revealAux_rel _ g i j hwf hi hj

theorem countInv_reveal {g : GameGrid} (hwf : WF g) {i j : Nat}
    (hi : i < g.nrows) (hj : j < g.ncols) (hinv : CountInv g) :
    CountInv (g.reveal i j) := by
  have hrel := reveal_rel hwf hi hj
  constructor
  · rw [hrel.nflags_eq, hrel.flagged_count_eq]
    exact hinv.1
  · have hc := hrel.counter_eq
    have h2 := hinv.2
    omega

/-- Folding `reveal` over a list of in-bounds positions (as `chording`
does) keeps well-formedness, the dimensions, and the counter invariant. -/
theorem countInv_fold_reveal (L : List (Nat × Nat)) :
    ∀ (g : GameGrid), WF g → (∀ p ∈ L, p.1 < g.nrows ∧ p.2 < g.ncols) →
      CountInv g →
      WF (L.foldl (fun h p => h.reveal p.1 p.2) g) ∧
      (L.foldl (fun h p => h.reveal p.1 p.2) g).nrows = g.nrows ∧
      (L.foldl (fun h p => h.reveal p.1 p.2) g).ncols = g.ncols ∧
      CountInv (L.foldl (fun h p => h.reveal p.1 p.2) g) := by
  induction L with
  | nil => exact fun g hwf _ hinv => ⟨hwf, rfl, rfl, hinv⟩
  | cons q L ihL =>
    intro g hwf hb hinv
    simp only [List.foldl_cons]
    have hq := hb q (List.mem_cons_self q L)
    have hrel := reveal_rel hwf hq.1 hq.2
    obtain ⟨a, b, c, d⟩ := ihL (g.reveal q.1 q.2) (WF_of_revealRel hwf hrel)
      (fun p hp => by
        rw [hrel.nrows_eq, hrel.ncols_eq]
        exact hb p (List.mem_cons_of_mem q hp))
      (countInv_reveal hwf hq.1 hq.2 hinv)
    exact ⟨a, b.trans hrel.nrows_eq, c.trans hrel.ncols_eq, d⟩

theorem countInv_place_flag {g : GameGrid} (hwf : WF g) {i j : Nat}
    (hi : i < g.nrows) (hj : j < g.ncols) (hinv : CountInv g) :
    WF (g.place_flag i j) ∧ (g.place_flag i j).nrows = g.nrows ∧
    (g.place_flag i j).ncols = g.ncols ∧ CountInv (g.place_flag i j) := by
  have hil : i < g.tab.length := by rw [hwf.1]; exact hi
  have hjl : j < (g.tab.getD i []).length := by rw [hwf.row_len hi]; exact hj
  unfold GameGrid.place_flag
  by_cases hf : (g.square_at i j).flagged = false
  · rw [if_pos hf]
    have hf2 : (squareAt g.tab i j).flagged = false := hf
    have hflag := count2_modify2 g.tab i j (fun sq => { sq with flagged := true })
      (fun sq => sq.flagged) hil hjl
    simp only [hf2, Bool.false_eq_true, if_false, if_true, ite_false,
      ite_true] at hflag
    have hrev := count2_modify2_invar g.tab i j
      (fun sq => { sq with flagged := true }) (fun sq => sq.revealed) rfl
    refine ⟨WF_of_shape hwf rfl rfl (modify2_length _ _ _ _)
      (fun x => modify2_row_length _ _ _ _ _), rfl, rfl, ?_, ?_⟩
    · show g.nflags + 1
        = (count2 (fun sq => sq.flagged)
            (modify2 g.tab i j (fun sq => { sq with flagged := true })) : Int)
      have h1 := hinv.1
      omega
    · show g.squares_revealed
        = (count2 (fun sq => sq.revealed)
            (modify2 g.tab i j (fun sq => { sq with flagged := true })) : Int)
      rw [hrev]
      exact hinv.2
  · rw [if_neg hf]
    exact ⟨hwf, rfl, rfl, hinv⟩

theorem countInv_remove_flag {g : GameGrid} (hwf : WF g) {i j : Nat}
    (hi : i < g.nrows) (hj : j < g.ncols) (hinv : CountInv g) :
    WF (g.remove_flag i j) ∧ (g.remove_flag i j).nrows = g.nrows ∧
    (g.remove_flag i j).ncols = g.ncols ∧ CountInv (g.remove_flag i j) := by
  have hil : i < g.tab.length := by rw [hwf.1]; exact hi
  have hjl : j < (g.tab.getD i []).length := by rw [hwf.row_len hi]; exact hj
  unfold GameGrid.remove_flag
  by_cases hf : (g.square_at i j).flagged = true
  · rw [if_pos hf]
    have hf2 : (squareAt g.tab i j).flagged = true := hf
    have hflag := count2_modify2 g.tab i j (fun sq => { sq with flagged := false })
      (fun sq => sq.flagged) hil hjl
    simp only [hf2, Bool.false_eq_true, if_false, if_true, ite_false,
      ite_true] at hflag
    have hrev := count2_modify2_invar g.tab i j
      (fun sq => { sq with flagged := false }) (fun sq => sq.revealed) rfl
    refine ⟨WF_of_shape hwf rfl rfl (modify2_length _ _ _ _)
      (fun x => modify2_row_length _ _ _ _ _), rfl, rfl, ?_, ?_⟩
    · show g.nflags - 1
        = (count2 (fun sq => sq.flagged)
            (modify2 g.tab i j (fun sq => { sq with flagged := false })) : Int)
      have h1 := hinv.1
      omega
    · show g.squares_revealed
        = (count2 (fun sq => sq.revealed)
            (modify2 g.tab i j (fun sq => { sq with flagged := false })) : Int)
      rw [hrev]
      exact hinv.2
  · rw [if_neg hf]
    exact ⟨hwf, rfl, rfl, hinv⟩

theorem countInv_reset (g : GameGrid) (hwf : WF g) :
    WF g.reset ∧ g.reset.nrows = g.nrows ∧ g.reset.ncols = g.ncols ∧
    CountInv g.reset := by
  refine ⟨WF_reset hwf, rfl, rfl, ?_, ?_⟩
  · show (0 : Int) = (count2 (fun sq => sq.flagged) g.reset.tab : Int)
    rw [count2_reset_zero g (fun sq => sq.flagged) (fun _sq => rfl)]
    rfl
  · show (0 : Int) = (count2 (fun sq => sq.revealed) g.reset.tab : Int)
    rw [count2_reset_zero g (fun sq => sq.revealed) (fun _sq => rfl)]
    rfl

theorem countInv_fold_place_mine (L : List (Nat × Nat)) :
    ∀ (g : GameGrid), WF g → CountInv g →
      WF (L.foldl (fun h p => h.place_mine p.1 p.2) g) ∧
      (L.foldl (fun h p => h.place_mine p.1 p.2) g).nrows = g.nrows ∧
      (L.foldl (fun h p => h.place_mine p.1 p.2) g).ncols = g.ncols ∧
      CountInv (L.foldl (fun h p => h.place_mine p.1 p.2) g) := by
  induction L with
  | nil => exact fun g hwf hinv => ⟨hwf, rfl, rfl, hinv⟩
  | cons q L ihL =>
    intro g hwf hinv
    simp only [List.foldl_cons]
    obtain ⟨f1, f2, f3, f4, -, -, -, -, f9, f10⟩ := place_mine_frame g q.1 q.2
    obtain ⟨a, b, c, d⟩ := ihL (g.place_mine q.1 q.2)
      (place_mine_WF hwf q.1 q.2)
      ⟨by rw [f3, f9]; exact hinv.1, by rw [f4, f10]; exact hinv.2⟩
    exact ⟨a, b.trans f1, c.trans f2, d⟩

/-- One valid public operation keeps well-formedness, the dimensions and
the §3.1 counter invariant. -/
theorem countInv_applyOp {R C : Nat} {g : GameGrid} (hwf : WF g)
    (hr : g.nrows = R) (hc : g.ncols = C) (hinv : CountInv g) (op : Op)
    (hop : ValidOp R C op) :
    WF (applyOp g op) ∧ (applyOp g op).nrows = R ∧
    (applyOp g op).ncols = C ∧ CountInv (applyOp g op) := by
  cases op with
  | reveal i j =>
    obtain ⟨hi, hj⟩ := hop
    have hrel := reveal_rel hwf (by rw [hr]; exact hi) (by rw [hc]; exact hj)
    exact ⟨WF_of_revealRel hwf hrel, hrel.nrows_eq.trans hr,
      hrel.ncols_eq.trans hc,
      countInv_reveal hwf (by rw [hr]; exact hi) (by rw [hc]; exact hj) hinv⟩
  | chording i j =>
    show WF (g.chording i j) ∧ (g.chording i j).nrows = R ∧
      (g.chording i j).ncols = C ∧ CountInv (g.chording i j)
    unfold GameGrid.chording
    by_cases hcd : g.flags_nearby i j = g.mines_nearby i j
    · rw [if_pos hcd]
      obtain ⟨a, b, c, d⟩ := countInv_fold_reveal (g.neighbors i j) g hwf
        (fun p hp => by
          have := mem_neighbors.mp hp
          exact ⟨this.1, this.2.1⟩) hinv
      exact ⟨a, b.trans hr, c.trans hc, d⟩
    · rw [if_neg hcd]
      exact ⟨hwf, hr, hc, hinv⟩
  | flag i j =>
    obtain ⟨hi, hj⟩ := hop
    obtain ⟨a, b, c, d⟩ := countInv_place_flag hwf (by rw [hr]; exact hi)
      (by rw [hc]; exact hj) hinv
    exact ⟨a, b.trans hr, c.trans hc, d⟩
  | unflag i j =>
    obtain ⟨hi, hj⟩ := hop
    obtain ⟨a, b, c, d⟩ := countInv_remove_flag hwf (by rw [hr]; exact hi)
      (by rw [hc]; exact hj) hinv
    exact ⟨a, b.trans hr, c.trans hc, d⟩
  | mine i j =>
    show WF (g.place_mine i j) ∧ (g.place_mine i j).nrows = R ∧
      (g.place_mine i j).ncols = C ∧ CountInv (g.place_mine i j)
    obtain ⟨f1, f2, f3, f4, -, -, -, -, f9, f10⟩ := place_mine_frame g i j
    exact ⟨place_mine_WF hwf i j, f1.trans hr, f2.trans hc,
      ⟨by rw [f3, f9]; exact hinv.1, by rw [f4, f10]; exact hinv.2⟩⟩
  | new_game n sample =>
    show WF (g.random_game n sample).1 ∧ (g.random_game n sample).1.nrows = R ∧
      (g.random_game n sample).1.ncols = C ∧ CountInv (g.random_game n sample).1
    obtain ⟨r1, r2, r3, r4⟩ := countInv_reset g hwf
    simp only [GameGrid.random_game]
    by_cases hcd : n ≤ g.reset.nrows * g.reset.ncols
    · rw [if_pos hcd]
      obtain ⟨a, b, c, d⟩ := countInv_fold_place_mine sample g.reset r1 r4
      exact ⟨a, (b.trans r2).trans hr, (c.trans r3).trans hc, d⟩
    · rw [if_neg hcd]
      exact ⟨r1, r2.trans hr, r3.trans hc, r4⟩
  | reset =>
    obtain ⟨r1, r2, r3, r4⟩ := countInv_reset g hwf
    exact ⟨r1, r2.trans hr, r3.trans hc, r4⟩

/-- C7: after any sequence of valid public operations from a freshly
constructed board, `nflags` equals the number of flagged squares and
`squares_revealed` equals the number of revealed squares.  (Quantifying
over all sequences covers the state after every intermediate operation,
since each prefix is itself a sequence.) -/
theorem claim_C7_counter_invariant (R C : Nat) (ops : List Op)
    (hv : ∀ op ∈ ops, ValidOp R C op) :
    (applyOps (GameGrid.init R C) ops).nflags
      = (count2 (fun sq => sq.flagged) (applyOps (GameGrid.init R C) ops).tab : Int) ∧
    (applyOps (GameGrid.init R C) ops).squares_revealed
      = (count2 (fun sq => sq.revealed) (applyOps (GameGrid.init R C) ops).tab : Int) := by
  have hbase : CountInv (GameGrid.init R C) := by
    constructor
    · show (0 : Int) = (count2 (fun sq => sq.flagged) (GameGrid.init R C).tab : Int)
      rw [count2_init_zero R C (fun sq => sq.flagged) (fun _i _j => rfl)]
      rfl
    · show (0 : Int) = (count2 (fun sq => sq.revealed) (GameGrid.init R C).tab : Int)
      rw [count2_init_zero R C (fun sq => sq.revealed) (fun _i _j => rfl)]
      rfl
  have hmain : ∀ (l : List Op) (g : GameGrid), WF g → g.nrows = R →
      g.ncols = C → CountInv g → (∀ op ∈ l, ValidOp R C op) →
      CountInv (applyOps g l) := by
    intro l
    induction l with
    | nil => exact fun g _ _ _ hinv _ => hinv
    | cons op l ihl =>
      intro g hwf hr hc hinv hvl
      show CountInv (applyOps (applyOp g op) l)
      obtain ⟨a, b, c, d⟩ := countInv_applyOp hwf hr hc hinv op
        (hvl op (List.mem_cons_self op l))
      exact ihl (applyOp g op) a b c d
        (fun o ho => hvl o (List.mem_cons_of_mem op ho))
  exact hmain ops (GameGrid.init R C) (WF_init R C) rfl rfl hbase hv

theorem claim_C7_witness :
    (applyOps (GameGrid.init 2 2)
        [Op.mine 1 1, Op.flag 0 1, Op.reveal 0 0, Op.unflag 0 1,
          Op.chording 0 0, Op.reset, Op.new_game 1 [(0, 0)]]).nflags
      = (count2 (fun sq => sq.flagged)
          (applyOps (GameGrid.init 2 2)
            [Op.mine 1 1, Op.flag 0 1, Op.reveal 0 0, Op.unflag 0 1,
              Op.chording 0 0, Op.reset, Op.new_game 1 [(0, 0)]]).tab : Int) ∧
    (applyOps (GameGrid.init 2 2)
        [Op.mine 1 1, Op.flag 0 1, Op.reveal 0 0, Op.unflag 0 1,
          Op.chording 0 0, Op.reset, Op.new_game 1 [(0, 0)]]).squares_revealed
      = (count2 (fun sq => sq.revealed)
          (applyOps (GameGrid.init 2 2)
            [Op.mine 1 1, Op.flag 0 1, Op.reveal 0 0, Op.unflag 0 1,
              Op.chording 0 0, Op.reset, Op.new_game 1 [(0, 0)]]).tab : Int) :=
  claim_C7_counter_invariant 2 2
    [Op.mine 1 1, Op.flag 0 1, Op.reveal 0 0, Op.unflag 0 1,
      Op.chording 0 0, Op.reset, Op.new_game 1 [(0, 0)]]
    (by
      intro op hop
      fin_cases hop <;> simp [ValidOp])
